import Mathlib

/-!
Verification of the aead-io streaming AEAD framing layer.

Shallow embedding of `src/writer.rs` (EncryptBufWriter), `src/reader.rs`
(DecryptBufReader), `src/error.rs`, `src/buffer.rs` and the byte-slice
transport implementations of `src/rw.rs`.  Bytes are modelled as `Nat`,
buffers as `List Nat` together with an explicit capacity, and the AEAD
stream primitive (an external crate, out of scope of the repository) is
modelled as a record of counter-indexed chunk transformations.
-/

namespace AeadIo

/-- `u32::MAX as usize` (2^32 - 1). -/
def U32MAX : Nat := 4294967295

/-- `(len as u32).to_be_bytes()`: big-endian 4-byte encoding of a length. -/
def beBytes (n : Nat) : List Nat :=
  [n / 16777216 % 256, n / 65536 % 256, n / 256 % 256, n % 256]

/-- `u32::from_be_bytes`: decode a 4-byte big-endian length. -/
def fromBeBytes : List Nat → Nat
  | [a, b, c, d] => ((a * 256 + b) * 256 + c) * 256 + d
  | _ => 0

/-- Model of a streaming AEAD primitive (the `aead::stream` Encryptor /
Decryptor pair for one fixed key, nonce and stream construction).  The
counter argument is the stream position; `encLast`/`decLast` are the
terminal ("last") operations.  `none` models `aead::Error`. -/
structure AeadM where
  tagSize : Nat
  nonceSize : Nat
  encNext : Nat → List Nat → Option (List Nat)
  encLast : Nat → List Nat → Option (List Nat)
  decNext : Nat → List Nat → Option (List Nat)
  decLast : Nat → List Nat → Option (List Nat)

/-- The laws a correct AEAD stream primitive satisfies: encryption always
succeeds, grows the payload by exactly the tag size, and decryption at the
same position inverts it.  Real primitives have a nonzero tag. -/
structure Lawful (A : AeadM) : Prop where
  tag_pos : 1 ≤ A.tagSize
  encNext_isSome : ∀ c p, (A.encNext c p).isSome
  encLast_isSome : ∀ c p, (A.encLast c p).isSome
  encNext_len : ∀ c p ct, A.encNext c p = some ct → ct.length = p.length + A.tagSize
  encLast_len : ∀ c p ct, A.encLast c p = some ct → ct.length = p.length + A.tagSize
  decNext_enc : ∀ c p ct, A.encNext c p = some ct → A.decNext c ct = some p
  decLast_enc : ∀ c p ct, A.encLast c p = some ct → A.decLast c ct = some p

/-- `error.rs` `Error<Io>`: an AEAD failure or a propagated transport error. -/
inductive Err (ι : Type) : Type
  | aead : Err ι
  | io : ι → Err ι
deriving DecidableEq

/-- `rw.rs` `IoError` (the no-std byte-slice transport error). -/
inductive IoErr : Type
  | eofE : IoErr
  | zeroE : IoErr
deriving DecidableEq

/-- `writer.rs` `State`. -/
inductive WState : Type
  | Init
  | Writing
  | Finished
deriving DecidableEq

/-- A write transport (`rw.rs` `Write`): `writeAll` and `flushT` return the
mutated transport together with an optional error. -/
structure WOps (ι τ : Type) where
  writeAll : τ → List Nat → τ × Option ι
  flushT : τ → τ × Option ι

/-- The infallible sink transport (`Vec<u8>` as a writer). -/
def sinkOps : WOps Unit (List Nat) :=
  ⟨fun t bs => (t ++ bs, none), fun t => (t, none)⟩

/-- A transport with a byte budget: writes beyond the budget fail.  Used to
exercise the transport-failure paths of the writer. -/
def budgetOps : WOps Unit (Nat × List Nat) :=
  ⟨fun t bs =>
    if bs.length ≤ t.1 then ((t.1 - bs.length, t.2 ++ bs), none)
    else (t, some ()),
   fun t => (t, none)⟩

/-- `writer.rs` `EncryptBufWriter`.  `encryptor = some c` is a live
`Encryptor` at stream position `c`; `none` models the taken (consumed)
encryptor.  `buffer`/`bufCap` model the `CappedBuffer`.  `encLastCalls` is
a ghost counter of invocations of the AEAD encrypt-last operation. -/
structure EncWriter (τ : Type) where
  encryptor : Option Nat
  nonce : List Nat
  buffer : List Nat
  bufCap : Nat
  writer : τ
  capacity : Nat
  state : WState
  encLastCalls : Nat
deriving DecidableEq

/-- `EncryptBufWriter::new` (construction from a key): truncates the buffer
and computes `capacity = buffer.capacity().min(u32::MAX)`, failing only if
that is `< 1`.  (No tag subtraction happens on this path.) -/
def EncWriter.newW (A : AeadM) (nonce buf : List Nat) (bufCap : Nat) (t : τ) :
    Option (EncWriter τ) :=
  let _ := buf.take 0   -- buffer.truncate(0)
  let capacity := min bufCap U32MAX
  if capacity < 1 then none
  else some ⟨some 0, nonce, [], bufCap, t, capacity, .Init, 0⟩

/-- `EncryptBufWriter::from_aead`: truncates the buffer and computes
`capacity = buffer.capacity().min(u32::MAX).checked_sub(tag_size)`,
failing on underflow or when the result is `< 1`. -/
def EncWriter.fromAeadW (A : AeadM) (nonce buf : List Nat) (bufCap : Nat) (t : τ) :
    Option (EncWriter τ) :=
  let _ := buf.take 0   -- buffer.truncate(0)
  let c0 := min bufCap U32MAX
  if A.tagSize ≤ c0 then
    let capacity := c0 - A.tagSize
    if capacity < 1 then none
    else some ⟨some 0, nonce, [], bufCap, t, capacity, .Init, 0⟩
  else none

/-- The AEAD step of `flush_buffer` (`writer.rs` lines 131-143): take the
encryptor and `encrypt_last_in_place` when `last`, otherwise borrow it and
`encrypt_next_in_place`.  The in-place encryption appends the tag through
the capped buffer, so it fails when the ciphertext would exceed the buffer
capacity (leaving the buffer length unchanged, as the tag-append is the
step that fails).  `encLastCalls` counts every encrypt-last invocation. -/
def encStep (A : AeadM) (w : EncWriter τ) (last : Bool) :
    EncWriter τ × Option (Err ι) :=
  if last then
    -- self.encryptor.take().ok_or(Error::Aead)?.encrypt_last_in_place(..)
    match w.encryptor with
    | none => (w, some (Err.aead (ι := ι)))
    | some c =>
      let w₁ := { w with encryptor := none, encLastCalls := w.encLastCalls + 1 }
      match A.encLast c w.buffer with
      | none => (w₁, some (Err.aead (ι := ι)))
      | some ct =>
        if ct.length ≤ w.bufCap then ({ w₁ with buffer := ct }, none)
        else (w₁, some (Err.aead (ι := ι)))
  else
    -- self.encryptor.as_mut().ok_or(Error::Aead)?.encrypt_next_in_place(..)
    match w.encryptor with
    | none => (w, some (Err.aead (ι := ι)))
    | some c =>
      match A.encNext c w.buffer with
      | none => (w, some (Err.aead (ι := ι)))
      | some ct =>
        if ct.length ≤ w.bufCap then
          ({ w with encryptor := some (c + 1), buffer := ct }, none)
        else (w, some (Err.aead (ι := ι)))

/-- The emission step of `flush_buffer` (`writer.rs` lines 145-158): emit
the nonce lazily on the first chunk, then the 4-byte big-endian length and
the ciphertext; mark `Finished` when `last`, and truncate the buffer. -/
def emitStep (O : WOps ι τ) (w₁ : EncWriter τ) (last : Bool) :
    EncWriter τ × Option (Err ι) :=
  match
    (if w₁.state = .Init then
      match O.writeAll w₁.writer w₁.nonce with
      | (t, some e) => ({ w₁ with writer := t }, some (Err.io e))
      | (t, none) => ({ w₁ with writer := t, state := .Writing }, none)
    else (w₁, none)) with
  | (w₂, some e) => (w₂, some e)
  | (w₂, none) =>
    match O.writeAll w₂.writer (beBytes w₂.buffer.length) with
    | (t, some e) => ({ w₂ with writer := t }, some (Err.io e))
    | (t, none) =>
      match O.writeAll t w₂.buffer with
      | (t₂, some e) => ({ w₂ with writer := t₂ }, some (Err.io e))
      | (t₂, none) =>
        ({ w₂ with writer := t₂,
                   state := if last then .Finished else w₂.state,
                   buffer := [] }, none)

/-- `EncryptBufWriter::flush_buffer(last)`.  Returns the mutated writer and
an optional error (the Rust method mutates `self` in place and returns
`Result<(), Error>`). -/
def flushBuffer (A : AeadM) (O : WOps ι τ) (w : EncWriter τ) (last : Bool) :
    EncWriter τ × Option (Err ι) :=
  if w.state = .Finished then (w, none) else
  match encStep A w last with
  | (w₁, some e) => (w₁, some e)
  | (w₁, none) => emitStep O w₁ last

/-- `EncryptBufWriter::write`. -/
def writeW (A : AeadM) (O : WOps ι τ) (w : EncWriter τ) (bs : List Nat) :
    EncWriter τ × Except (Err ι) Nat :=
  if w.state = .Finished then (w, .error .aead) else
  match
    (if bs.length > w.capacity - w.buffer.length
     then flushBuffer A O w false else (w, none)) with
  | (w₁, some e) => (w₁, .error e)
  | (w₁, none) =>
    let n := min bs.length (w₁.capacity - w₁.buffer.length)
    -- self.buffer.extend_from_slice(&buf[..n]): fails past the capacity
    if w₁.buffer.length + n ≤ w₁.bufCap
    then ({ w₁ with buffer := w₁.buffer ++ bs.take n }, .ok n)
    else (w₁, .error .aead)

/-- The `write_all` retry loop (`writer.rs`, `Write` impl): repeated `write`
until the input is exhausted, treating a zero-byte write as an error.  The
fuel argument bounds the iterations; every productive call consumes at
least one input byte, so `bs.length` iterations always suffice. -/
def writeAllGo (A : AeadM) (O : WOps ι τ) :
    Nat → EncWriter τ → List Nat → EncWriter τ × Option (Err ι)
  | _, w, [] => (w, none)
  | 0, w, _ :: _ => (w, some .aead)
  | fuel + 1, w, b :: bs =>
    match writeW A O w (b :: bs) with
    | (w₁, .error e) => (w₁, some e)
    | (w₁, .ok 0) => (w₁, some .aead)
    | (w₁, .ok (n + 1)) => writeAllGo A O fuel w₁ ((b :: bs).drop (n + 1))

/-- `write_all(buf)`. -/
def writeAllW (A : AeadM) (O : WOps ι τ) (w : EncWriter τ) (bs : List Nat) :
    EncWriter τ × Option (Err ι) :=
  writeAllGo A O bs.length w bs

/-- `EncryptBufWriter::flush`: a last-chunk flush followed by a transport
flush. -/
def flushW (A : AeadM) (O : WOps ι τ) (w : EncWriter τ) :
    EncWriter τ × Option (Err ι) :=
  match flushBuffer A O w true with
  | (w₁, some e) => (w₁, some e)
  | (w₁, none) =>
    match O.flushT w₁.writer with
    | (t, some e) => ({ w₁ with writer := t }, some (Err.io e))
    | (t, none) => ({ w₁ with writer := t }, none)

/-- `EncryptBufWriter::into_inner`: on success the transport is handed back
and the drop-time finalization is suppressed; on failure the composite
error carries the mutated adapter. -/
def intoInner (A : AeadM) (O : WOps ι τ) (w : EncWriter τ) :
    Except (EncWriter τ × Err ι) τ :=
  match flushBuffer A O w true with
  | (w₁, none) => .ok w₁.writer
  | (w₁, some e) => .error (w₁, e)

/-- `Drop for EncryptBufWriter`: best-effort last-chunk flush, error
discarded. -/
def dropW (A : AeadM) (O : WOps ι τ) (w : EncWriter τ) : EncWriter τ :=
  (flushBuffer A O w true).1

/-- One wire frame: 4-byte big-endian length followed by the ciphertext. -/
def frame (ct : List Nat) : List Nat := beBytes ct.length ++ ct

/-- Concatenated frames. -/
def wireOf (cts : List (List Nat)) : List Nat := (cts.map frame).flatten

/-- Encrypt a list of chunks with `encNext` at consecutive counters. -/
def encSeq (A : AeadM) : Nat → List (List Nat) → Option (List (List Nat))
  | _, [] => some []
  | c, p :: ps =>
    match A.encNext c p with
    | none => none
    | some ct =>
      match encSeq A (c + 1) ps with
      | none => none
      | some cts => some (ct :: cts)

/-- Run of the encrypt side used by the round-trip and length claims:
construct via `from_aead` over the sink transport, `write_all` the
plaintext, then `flush`.  Returns the emitted byte stream. -/
def encryptRun (A : AeadM) (nonce : List Nat) (bufCap : Nat) (P : List Nat) :
    Option (List Nat) :=
  match EncWriter.fromAeadW A nonce [] bufCap ([] : List Nat) with
  | none => none
  | some w₀ =>
    match writeAllW A sinkOps w₀ P with
    | (_, some _) => none
    | (w₁, none) =>
      match flushW A sinkOps w₁ with
      | (_, some _) => none
      | (w₂, none) => some w₂.writer

/-- A writer operation (used to quantify over caller behaviours). -/
inductive WOpA : Type
  | wr : List Nat → WOpA
  | fl : WOpA

/-- Apply one writer operation, keeping the mutated writer whether or not
the operation reported an error (as a caller holding the adapter would). -/
def stepOp (A : AeadM) (O : WOps ι τ) (w : EncWriter τ) : WOpA → EncWriter τ
  | .wr bs => (writeW A O w bs).1
  | .fl => (flushW A O w).1

/-- Apply a sequence of writer operations. -/
def runOps (A : AeadM) (O : WOps ι τ) (w : EncWriter τ) : List WOpA → EncWriter τ
  | [] => w
  | op :: ops => runOps A O (stepOp A O w op) ops

/-- `reader.rs` `MaybeUninitDecryptor`: `decryptorD c` is a live
`Decryptor` at stream position `c`. -/
inductive MUD : Type
  | uninitD : MUD
  | decryptorD : Nat → MUD
  | emptyD : MUD
deriving DecidableEq

/-- `reader.rs` `DecryptBufReader` over the byte-slice transport of
`rw.rs` (`impl Read for &[u8]`): `stream` is the unread remainder of the
source.  `decNextCalls`/`decLastCalls` are ghost counters of AEAD
decrypt invocations. -/
structure DecReader where
  decryptor : MUD
  buffer : List Nat
  bufCap : Nat
  stream : List Nat
  bytesToRead : Nat
  readOffset : Nat
  capacity : Nat
  decNextCalls : Nat
  decLastCalls : Nat
deriving DecidableEq

/-- `DecryptBufReader::new` / `from_aead` (both compute the capacity the
same way): truncate the buffer, `capacity = buffer.capacity().min(u32::MAX)`,
fail if `< 1`. -/
def DecReader.newR (A : AeadM) (buf : List Nat) (bufCap : Nat)
    (stream : List Nat) : Option DecReader :=
  let _ := buf.take 0   -- buffer.truncate(0)
  let capacity := min bufCap U32MAX
  if capacity < 1 then none
  else some ⟨.uninitD, [], bufCap, stream, 0, 0, capacity, 0, 0⟩

/-- `DecryptBufReader::read_chunk_size`, specialized to the byte-slice
transport: the first `read` grabs `min(4, remaining)` bytes, so the
4-iteration loop either finishes in one read, sees a clean end-of-stream
at offset 0, or hits end-of-stream mid-prefix on its second read. -/
def readChunkSize (r : DecReader) : DecReader × Option (Err IoErr) :=
  if r.stream.length = 0 then
    ({ r with bytesToRead := 0 }, none)
  else if r.stream.length < 4 then
    ({ r with stream := [] }, some .aead)
  else
    let n := fromBeBytes (r.stream.take 4)
    if n > r.capacity then
      ({ r with stream := r.stream.drop 4 }, some .aead)
    else
      ({ r with stream := r.stream.drop 4, bytesToRead := n }, none)

/-- Result of the chunk-filling `while` loop of `DecryptBufReader::read`. -/
inductive LoopRes : Type
  | errL : Err IoErr → LoopRes
  | retZero : LoopRes
  | filled : LoopRes
deriving DecidableEq

/-- The `while self.buffer.is_empty()` loop of `DecryptBufReader::read`:
resize the buffer to the pending chunk length, `read_exact` it from the
transport, read the next chunk length, then decrypt in place (with
`decrypt_last` when the next length is the zero terminator).  Each
iteration consumes at least one stream byte before recursing, so
`stream.length + 1` fuel always suffices. -/
def readLoop (A : AeadM) : Nat → DecReader → DecReader × LoopRes
  | fuel, r =>
    if r.buffer = [] then
      if r.bytesToRead = 0 then (r, .retZero)
      else
        match fuel with
        | 0 => (r, .errL .aead)
        | fuel + 1 =>
          -- self.buffer.resize_zeroed(self.bytes_to_read)
          if r.bytesToRead ≤ r.bufCap then
            -- self.reader.read_exact(self.buffer.as_mut())
            if r.bytesToRead ≤ r.stream.length then
              let r₁ := { r with buffer := r.stream.take r.bytesToRead,
                                 stream := r.stream.drop r.bytesToRead }
              match readChunkSize r₁ with
              | (r₂, some e) => (r₂, .errL e)
              | (r₂, none) =>
                if r₂.bytesToRead = 0 then
                  match r₂.decryptor with
                  | .decryptorD c =>
                    let r₃ := { r₂ with decryptor := .emptyD,
                                        decLastCalls := r₂.decLastCalls + 1 }
                    match A.decLast c r₃.buffer with
                    | none => (r₃, .errL .aead)
                    | some pt => readLoop A fuel { r₃ with buffer := pt }
                  | _ => ({ r₂ with decryptor := .emptyD }, .errL .aead)
                else
                  match r₂.decryptor with
                  | .decryptorD c =>
                    let r₃ := { r₂ with decNextCalls := r₂.decNextCalls + 1 }
                    match A.decNext c r₃.buffer with
                    | none => (r₃, .errL .aead)
                    | some pt =>
                      readLoop A fuel
                        { r₃ with buffer := pt, decryptor := .decryptorD (c + 1) }
                  | _ => (r₂, .errL .aead)
            else
              ({ r with buffer := List.replicate r.bytesToRead 0 },
               .errL (.io .eofE))
          else (r, .errL .aead)
    else (r, .filled)

/-- The lazy-initialization prologue of `DecryptBufReader::read`: when the
decryptor is uninitialized, `read_exact` the nonce, promote the decryptor,
and read the first chunk length. -/
def readInit (A : AeadM) (r : DecReader) : DecReader × Option (Err IoErr) :=
  match r.decryptor with
  | .uninitD =>
    if A.nonceSize ≤ r.stream.length then
      readChunkSize { r with stream := r.stream.drop A.nonceSize,
                             decryptor := .decryptorD 0 }
    else (r, some (.io .eofE))
  | _ => (r, none)

/-- The delivery epilogue of `DecryptBufReader::read`: after the loop, copy
up to `n` bytes out of the plaintext buffer at `read_offset`, zero the
copied region, and either truncate the drained buffer or advance the
offset.  Returns the delivered bytes (the Rust method returns their
count after copying them into the caller's slice). -/
def readCore (A : AeadM) (r : DecReader) (n : Nat) :
    DecReader × Except (Err IoErr) (List Nat) :=
  match readLoop A (r.stream.length + 1) r with
  | (r₁, .errL e) => (r₁, .error e)
  | (r₁, .retZero) => (r₁, .ok [])
  | (r₁, .filled) =>
    let k := min (r₁.buffer.length - r₁.readOffset) n
    let res := (r₁.buffer.drop r₁.readOffset).take k
    let zeroed := r₁.buffer.take r₁.readOffset ++ List.replicate k 0 ++
                  r₁.buffer.drop (r₁.readOffset + k)
    if r₁.buffer.length = r₁.readOffset + k then
      ({ r₁ with buffer := [], readOffset := 0 }, .ok res)
    else
      ({ r₁ with buffer := zeroed, readOffset := r₁.readOffset + k }, .ok res)

/-- `DecryptBufReader::read` with a caller slice of length `n`. -/
def readR (A : AeadM) (r : DecReader) (n : Nat) :
    DecReader × Except (Err IoErr) (List Nat) :=
  match readInit A r with
  | (r₁, some e) => (r₁, .error e)
  | (r₁, none) => readCore A r₁ n

/-- `read_to_end` style loop: repeated `read` with an `n`-byte slice until a
zero-byte read, concatenating the delivered bytes. -/
def readAll (A : AeadM) (n : Nat) : Nat → DecReader → Except (Err IoErr) (List Nat)
  | 0, _ => .error .aead
  | fuel + 1, r =>
    match readR A r n with
    | (_, .error e) => .error e
    | (_, .ok []) => .ok []
    | (r₁, .ok (b :: bs)) =>
      match readAll A n fuel r₁ with
      | .error e => .error e
      | .ok rest => .ok (b :: bs ++ rest)

/-- Run of the decrypt side: construct a reader over the emitted bytes and
read everything out. -/
def decryptRun (A : AeadM) (bufCap : Nat) (bytes : List Nat) (n fuel : Nat) :
    Option (List Nat) :=
  match DecReader.newR A [] bufCap bytes with
  | none => none
  | some r₀ =>
    match readAll A n fuel r₀ with
    | .error _ => none
    | .ok out => some out

/-- The chunk decomposition the writer emits: the plaintext splits into
non-last chunks `cs` (encrypted with `encNext` at counters `0, 1, …`)
followed by a last chunk `cl` (encrypted with `encLast`), each bounded by
the effective capacity, and the emitted frame section is their framed
ciphertexts in order — with no trailing terminator. -/
def EncodesFrom (A : AeadM) (ceff : Nat) (P out : List Nat) : Prop :=
  ∃ cs cl cts ctl,
    P = cs.flatten ++ cl ∧
    (∀ c ∈ cs, c.length ≤ ceff) ∧ cl.length ≤ ceff ∧
    encSeq A 0 cs = some cts ∧ A.encLast cs.length cl = some ctl ∧
    out = wireOf (cts ++ [ctl])

/-- The ciphertext frame list `F`, decrypted starting at counter `c`
(`decNext` for all but the final frame, `decLast` for the final one),
yields the plaintext `ps`. -/
inductive DecOk (A : AeadM) : Nat → List (List Nat) → List Nat → Prop
  | last : ∀ {c ct p}, A.decLast c ct = some p → DecOk A c [ct] p
  | next : ∀ {c ct p cts ps}, A.decNext c ct = some p →
      DecOk A (c + 1) cts ps → DecOk A c (ct :: cts) (p ++ ps)

/-- Structural well-formedness of a writer, as established by
`from_aead` and preserved by every operation. -/
def WInv (A : AeadM) (w : EncWriter τ) : Prop :=
  w.buffer.length ≤ w.capacity ∧
  w.capacity + A.tagSize ≤ w.bufCap ∧
  w.capacity + A.tagSize ≤ U32MAX ∧
  1 ≤ w.capacity

/-- Structural well-formedness of a reader, as established by the
constructors (the capacity field is never mutated). -/
def RdInv (r : DecReader) : Prop :=
  r.capacity = min r.bufCap U32MAX ∧ 1 ≤ r.capacity

/-- The stream-side configuration of a reader: either fully terminated
(decryptor consumed, terminator observed, nothing pending) or mid-stream
with the next frame's length already read into `bytes_to_read` and the
remaining frames on the transport decrypting to `tail`. -/
def RemCfg (A : AeadM) (r : DecReader) (tail : List Nat) : Prop :=
  (r.bytesToRead = 0 ∧ r.decryptor = .emptyD ∧ r.stream = [] ∧ tail = []) ∨
  (∃ c F, r.decryptor = .decryptorD c ∧
     r.bytesToRead = (F.headD []).length ∧
     r.stream = F.headD [] ++ wireOf F.tail ∧
     (∀ g ∈ F, 1 ≤ g.length ∧ g.length ≤ r.capacity) ∧
     DecOk A c F tail)

/-- The undelivered plaintext of a reader: the part of the current
decrypted chunk past `read_offset`, followed by the decryption of the
frames still configured on the stream. -/
def ReaderRem (A : AeadM) (r : DecReader) (ps : List Nat) : Prop :=
  ∃ tail,
    ((r.buffer = [] ∧ r.readOffset = 0 ∧ ps = tail) ∨
     (r.readOffset < r.buffer.length ∧
      ps = r.buffer.drop r.readOffset ++ tail)) ∧
    RemCfg A r tail

/-- The encrypt-last bookkeeping invariant: the ghost counter is 0 exactly
while the encryptor is still present, and a `Finished` writer has no
encryptor. -/
def JInv (w : EncWriter τ) : Prop :=
  (w.encryptor ≠ none ∧ w.encLastCalls = 0 ∨
   w.encryptor = none ∧ w.encLastCalls = 1) ∧
  (w.state = .Finished → w.encryptor = none)

/-- A toy AEAD instance used to evaluate the theorems on concrete inputs:
the "ciphertext" is the plaintext followed by a `tag`-byte counter tag,
and decryption strips it. -/
def toy (tag ns : Nat) : AeadM where
  tagSize := tag
  nonceSize := ns
  encNext := fun c p => some (p ++ List.replicate tag (c % 256))
  encLast := fun c p => some (p ++ List.replicate tag (c % 256))
  decNext := fun _ ct =>
    if tag ≤ ct.length then some (ct.take (ct.length - tag)) else none
  decLast := fun _ ct =>
    if tag ≤ ct.length then some (ct.take (ct.length - tag)) else none

end AeadIo


namespace AeadIo

theorem fromBeBytes_beBytes {n : Nat} (h : n ≤ U32MAX) :
    fromBeBytes (beBytes n) = n := by
  simp only [beBytes, fromBeBytes, U32MAX] at *
  omega

/-- C2 (amended): `from_aead` computes `min(capacity, 2^32-1) - tag_size`
and fails unless that is positive; `new` computes `min(capacity, 2^32-1)`
without subtracting the tag and fails only when that is zero. -/
theorem c2_constructor_capacity (A : AeadM) (nonce buf : List Nat)
    (bufCap : Nat) (t : τ) :
    ((EncWriter.fromAeadW A nonce buf bufCap t).isSome ↔
      A.tagSize + 1 ≤ min bufCap U32MAX) ∧
    ((EncWriter.newW A nonce buf bufCap t).isSome ↔ 1 ≤ min bufCap U32MAX) ∧
    (∀ w : EncWriter τ, EncWriter.fromAeadW A nonce buf bufCap t = some w →
      w.capacity = min bufCap U32MAX - A.tagSize) ∧
    (∀ w : EncWriter τ, EncWriter.newW A nonce buf bufCap t = some w →
      w.capacity = min bufCap U32MAX) := by
  refine ⟨?_, ?_, ?_, ?_⟩
  · simp only [EncWriter.fromAeadW]
    split
    · split
      · simp; omega
      · simp; omega
    · simp; omega
  · simp only [EncWriter.newW]
    split
    · simp; omega
    · simp; omega
  · intro w hw
    simp only [EncWriter.fromAeadW] at hw
    split at hw
    · split at hw
      · exact absurd hw (by simp)
      · cases hw; rfl
    · exact absurd hw (by simp)
  · intro w hw
    simp only [EncWriter.newW] at hw
    split at hw
    · exact absurd hw (by simp)
    · cases hw; rfl

/-- C2 counterexample: constructing from a key (`new`) with a buffer whose
capacity equals the tag size succeeds, with effective capacity 16 — the
claimed computation would give 0 and fail. -/
theorem c2_cex :
    ((EncWriter.newW (toy 16 1) [9] [] 16 ([] : List Nat)).map
        EncWriter.capacity = some 16) ∧
    (16 : Nat) ≠ min 16 U32MAX - (toy 16 1).tagSize := by
  constructor
  · rfl
  · decide

/-- C4: the reader's length read: (i) a clean end-of-stream before any of
the 4 bytes sets the pending chunk length to 0 and succeeds; (ii) an
end-of-stream after at least one length byte is an AEAD-kind error;
(iii) a declared length above the effective capacity is an AEAD-kind
error, with exactly the 4 length bytes (and no payload) consumed. -/
theorem c4_length_read (r₁ r₂ r₃ : DecReader)
    (h₁ : r₁.stream = [])
    (h₂ : 1 ≤ r₂.stream.length) (h₂' : r₂.stream.length < 4)
    (h₃ : 4 ≤ r₃.stream.length)
    (h₃' : r₃.capacity < fromBeBytes (r₃.stream.take 4)) :
    readChunkSize r₁ = ({ r₁ with bytesToRead := 0 }, none) ∧
    (readChunkSize r₂).2 = some .aead ∧
    readChunkSize r₃ = ({ r₃ with stream := r₃.stream.drop 4 }, some .aead) := by
  refine ⟨?_, ?_, ?_⟩
  · simp [readChunkSize, h₁]
  · simp only [readChunkSize]
    split_ifs <;> first | rfl | omega
  · simp only [readChunkSize]
    split_ifs <;> first | rfl | omega

theorem c4_length_read_w :
    readChunkSize ⟨.uninitD, [], 8, [], 0, 0, 8, 0, 0⟩ =
      ({ (⟨.uninitD, [], 8, [], 0, 0, 8, 0, 0⟩ : DecReader) with
          bytesToRead := 0 }, none) ∧
    (readChunkSize ⟨.decryptorD 0, [], 8, [1, 2], 0, 0, 8, 0, 0⟩).2 =
      some .aead ∧
    readChunkSize ⟨.decryptorD 0, [], 8, [0, 0, 1, 0, 7], 0, 0, 8, 0, 0⟩ =
      ({ (⟨.decryptorD 0, [], 8, [0, 0, 1, 0, 7], 0, 0, 8, 0, 0⟩ : DecReader)
          with stream := [0, 0, 1, 0, 7].drop 4 }, some .aead) :=
  c4_length_read _ _ _ rfl (by decide) (by decide) (by decide) (by decide)

/-- C9 (amended): with at least 4 bytes available, the length read
succeeds exactly when the declared big-endian length is at most the
reader's effective capacity; anything above it — including lengths within
`capacity + tag_size` — is rejected with an AEAD-kind error. -/
theorem c9_declared_length_bound (r : DecReader) (h : 4 ≤ r.stream.length) :
    (readChunkSize r).2 = none ↔ fromBeBytes (r.stream.take 4) ≤ r.capacity := by
  simp only [readChunkSize]
  split_ifs <;> simp <;> omega

theorem c9_declared_length_bound_w :
    ((readChunkSize ⟨.decryptorD 0, [], 20, [0, 0, 0, 18, 5], 0, 0, 20, 0, 0⟩).2
        = none) ↔
      fromBeBytes ([0, 0, 0, 18, 5].take 4) ≤ 20 :=
  c9_declared_length_bound _ (by decide)

/-- C9 counterexample: with reader capacity 20 and tag size 16, a declared
length of 21 lies strictly between the effective capacity and
capacity + tag_size, yet the length read fails with an AEAD-kind error. -/
theorem c9_cex :
    20 < 21 ∧ 21 ≤ 20 + (toy 16 1).tagSize ∧
    (readChunkSize
        ⟨.decryptorD 0, [], 20, [0, 0, 0, 21, 1, 1], 0, 0, 20, 0, 0⟩).2 =
      some .aead := by
  refine ⟨by decide, by decide, rfl⟩

end AeadIo

namespace AeadIo

/-- C10: on a transport that delivers exactly the nonce and then
end-of-stream, the first read returns 0 bytes cleanly, no AEAD decrypt
operation is ever invoked, and every subsequent read also returns 0. -/
theorem c10_nonce_only_stream (A : AeadM) (nonce : List Nat) (bufCap n : Nat)
    (r₀ : DecReader)
    (hn : nonce.length = A.nonceSize)
    (h : DecReader.newR A [] bufCap nonce = some r₀) :
    ∃ r', readR A r₀ n = (r', .ok []) ∧
      r'.decNextCalls = 0 ∧ r'.decLastCalls = 0 ∧
      ∀ m, readR A r' m = (r', .ok []) := by
  simp only [DecReader.newR] at h
  split at h
  · exact absurd h (by simp)
  · cases h
    refine ⟨⟨.decryptorD 0, [], bufCap, [], 0, 0, min bufCap U32MAX, 0, 0⟩,
      ?_, rfl, rfl, ?_⟩
    · simp [readR, readInit, readChunkSize, readCore, readLoop, ← hn]
    · intro m
      rfl

end AeadIo

namespace AeadIo

theorem readChunkSize_fields (r r' : DecReader) (e : Option (Err IoErr))
    (h : readChunkSize r = (r', e)) :
    r'.decryptor = r.decryptor ∧
    r'.buffer = r.buffer ∧
    r'.bufCap = r.bufCap ∧
    r'.readOffset = r.readOffset ∧
    r'.capacity = r.capacity ∧
    r'.decNextCalls = r.decNextCalls ∧
    r'.decLastCalls = r.decLastCalls ∧
    r'.stream.length ≤ r.stream.length := by
  simp only [readChunkSize] at h
  split_ifs at h <;> cases h <;> simp [List.length_drop]

theorem readLoop_retZero (A : AeadM) :
    ∀ fuel r r', readLoop A fuel r = (r', .retZero) →
      r'.buffer = [] ∧ r'.bytesToRead = 0 ∧ r'.readOffset = r.readOffset ∧
      (r.decryptor ≠ .uninitD → r'.decryptor ≠ .uninitD) := by
  intro fuel
  induction fuel with
  | zero =>
    intro r r' h
    rw [readLoop] at h
    split at h
    · split at h
      · cases h
        exact ⟨‹_›, ‹_›, rfl, fun hd => hd⟩
      · simp at h
    · simp at h
  | succ fuel ih =>
    intro r r' h
    rw [readLoop] at h
    repeat' first | split at h | simp only [] at h
    all_goals try (cases h; exact ⟨‹_›, ‹_›, rfl, fun hd => hd⟩)
    all_goals try simp at h
    all_goals
      obtain ⟨hb', hbtr', hoff', hdec'⟩ := ih _ _ h
    all_goals
      refine ⟨hb', hbtr', ?_, fun _ => hdec' (by simp)⟩
    all_goals
      rename_i r₂ hrcs hbz m c hdec osc pt hdl
    all_goals
      have hf := readChunkSize_fields _ _ _ hrcs
      rw [hoff']
      simpa using hf.2.2.2.1

end AeadIo

namespace AeadIo

theorem readLoop_filled (A : AeadM) :
    ∀ fuel r r', readLoop A fuel r = (r', .filled) →
      r'.buffer ≠ [] ∧ r'.readOffset = r.readOffset ∧ (r.buffer = [] ∨ r' = r) ∧
      (r.decryptor ≠ .uninitD → r'.decryptor ≠ .uninitD) := by
  intro fuel
  induction fuel with
  | zero =>
    intro r r' h
    rw [readLoop] at h
    repeat' first | split at h | simp only [] at h
    all_goals try simp at h
    all_goals (cases h; exact ⟨‹_›, rfl, Or.inr rfl, fun hd => hd⟩)
  | succ fuel ih =>
    intro r r' h
    rw [readLoop] at h
    repeat' first | split at h | simp only [] at h
    all_goals try (cases h; exact ⟨‹_›, rfl, Or.inr rfl, fun hd => hd⟩)
    all_goals try simp at h
    all_goals
      obtain ⟨hb', hoff', hor, hdec'⟩ := ih _ _ h
    all_goals
      rename_i r₂ hrcs hbz m c hdec osc pt hdl
    all_goals
      have hf := readChunkSize_fields _ _ _ hrcs
      refine ⟨hb', ?_, Or.inl ‹r.buffer = []›, fun _ => hdec' (by simp)⟩
      rw [hoff']
      simpa using hf.2.2.2.1

end AeadIo

namespace AeadIo

theorem readInit_skip (A : AeadM) (r : DecReader) (hd : r.decryptor ≠ .uninitD) :
    readInit A r = (r, none) := by
  rcases hdec : r.decryptor with _ | c | _
  · exact absurd hdec hd
  · simp [readInit, hdec]
  · simp [readInit, hdec]

theorem drained_read_fixpoint (A : AeadM) (r : DecReader) (m : Nat)
    (hd : r.decryptor ≠ .uninitD) (hb : r.buffer = []) (hz : r.bytesToRead = 0) :
    readR A r m = (r, .ok []) := by
  simp only [readR, readInit_skip A r hd, readCore]
  rw [readLoop]
  simp [hb, hz]

/-- C8 (amended): with a nonempty caller slice and an initialized reader
whose offset is in range, `read` returns 0 bytes only in the terminated
state (pending chunk length 0, plaintext buffer drained) — and once in
that state every subsequent read, of any slice, returns 0 and leaves the
reader unchanged.  (An empty caller slice can return 0 mid-stream; see the
counterexample.) -/
theorem c8_read_zero_iff_exhausted (A : AeadM) (r : DecReader) (n : Nat)
    (hd : r.decryptor ≠ .uninitD)
    (hoff0 : r.buffer = [] → r.readOffset = 0)
    (hoff1 : r.buffer ≠ [] → r.readOffset < r.buffer.length)
    (hn : 1 ≤ n) :
    ((readR A r n).2 = .ok [] →
      (readR A r n).1.buffer = [] ∧ (readR A r n).1.bytesToRead = 0 ∧
      ∀ m, readR A (readR A r n).1 m = ((readR A r n).1, .ok [])) ∧
    (r.buffer = [] → r.bytesToRead = 0 → readR A r n = (r, .ok [])) := by
  constructor
  · intro hok
    have hcore : readR A r n = readCore A r n := by
      simp [readR, readInit_skip A r hd]
    rw [hcore] at hok ⊢
    rcases hl : readLoop A (r.stream.length + 1) r with ⟨r₁, res⟩
    cases res with
    | errL e => simp [readCore, hl] at hok
    | retZero =>
      obtain ⟨h1, h2, _, h4⟩ := readLoop_retZero A _ _ _ hl
      have hres : readCore A r n = (r₁, .ok []) := by simp [readCore, hl]
      rw [hres]
      exact ⟨h1, h2, fun m => drained_read_fixpoint A r₁ m (h4 hd) h1 h2⟩
    | filled =>
      obtain ⟨h1, h2, h3, _⟩ := readLoop_filled A _ _ _ hl
      exfalso
      have hofflt : r₁.readOffset < r₁.buffer.length := by
        rcases h3 with hb | rfl
        · rw [h2, hoff0 hb]
          exact List.length_pos.mpr h1
        · exact hoff1 h1
      simp only [readCore, hl] at hok
      split at hok <;>
      · simp only [Except.ok.injEq] at hok
        have := congrArg List.length hok
        simp [List.length_take, List.length_drop] at this
        omega
  · intro hb hz
    exact drained_read_fixpoint A r n hd hb hz

set_option maxHeartbeats 2000000 in
/-- C8 counterexample: a read with an empty caller slice returns 0 bytes
while a decrypted plaintext byte is still pending — the stream is not
exhausted. -/
theorem c8_cex :
    (readR (toy 2 1) ⟨.uninitD, [], 3, [9, 0, 0, 0, 3, 7, 1, 1], 0, 0, 3, 0, 0⟩
        0).2 = .ok [] ∧
    (readR (toy 2 1) ⟨.uninitD, [], 3, [9, 0, 0, 0, 3, 7, 1, 1], 0, 0, 3, 0, 0⟩
        0).1.buffer = [7] := by
  exact ⟨rfl, rfl⟩

theorem c8_read_zero_iff_exhausted_w :
    ((readR (toy 2 1) ⟨.decryptorD 0, [], 3, [], 0, 0, 3, 0, 0⟩ 1).2 = .ok [] →
      (readR (toy 2 1) ⟨.decryptorD 0, [], 3, [], 0, 0, 3, 0, 0⟩ 1).1.buffer = [] ∧
      (readR (toy 2 1)
        ⟨.decryptorD 0, [], 3, [], 0, 0, 3, 0, 0⟩ 1).1.bytesToRead = 0 ∧
      ∀ m, readR (toy 2 1)
          (readR (toy 2 1) ⟨.decryptorD 0, [], 3, [], 0, 0, 3, 0, 0⟩ 1).1 m =
        ((readR (toy 2 1) ⟨.decryptorD 0, [], 3, [], 0, 0, 3, 0, 0⟩ 1).1,
          .ok [])) ∧
    ((⟨.decryptorD 0, [], 3, [], 0, 0, 3, 0, 0⟩ : DecReader).buffer = [] →
      (⟨.decryptorD 0, [], 3, [], 0, 0, 3, 0, 0⟩ : DecReader).bytesToRead = 0 →
      readR (toy 2 1) ⟨.decryptorD 0, [], 3, [], 0, 0, 3, 0, 0⟩ 1 =
        (⟨.decryptorD 0, [], 3, [], 0, 0, 3, 0, 0⟩, .ok [])) :=
  c8_read_zero_iff_exhausted (toy 2 1) _ 1 (by simp) (fun _ => rfl)
    (fun h => absurd rfl h) (by decide)

end AeadIo


namespace AeadIo

end AeadIo

namespace AeadIo

end AeadIo

namespace AeadIo

theorem encStep_false_eq (A : AeadM) (w : EncWriter τ) (c : Nat) (ct : List Nat)
    (henc : w.encryptor = some c) (hnext : A.encNext c w.buffer = some ct)
    (hlen : ct.length ≤ w.bufCap) :
    encStep (ι := ι) A w false =
      ({ w with encryptor := some (c + 1), buffer := ct }, none) := by
  simp [encStep, henc, hnext, hlen]

theorem encStep_true_eq (A : AeadM) (w : EncWriter τ) (c : Nat) (ct : List Nat)
    (henc : w.encryptor = some c) (hlast : A.encLast c w.buffer = some ct)
    (hlen : ct.length ≤ w.bufCap) :
    encStep (ι := ι) A w true =
      ({ w with encryptor := none, encLastCalls := w.encLastCalls + 1,
                buffer := ct }, none) := by
  simp [encStep, henc, hlast, hlen]

theorem emitStep_sink_eq (w₁ : EncWriter (List Nat)) (last : Bool) :
    emitStep sinkOps w₁ last =
      ({ w₁ with
          writer := w₁.writer ++ (if w₁.state = .Init then w₁.nonce else []) ++
                    beBytes w₁.buffer.length ++ w₁.buffer,
          state := if last then .Finished
                   else if w₁.state = .Init then .Writing else w₁.state,
          buffer := [] }, none) := by
  by_cases hi : w₁.state = .Init <;>
    simp [emitStep, sinkOps, hi]

theorem flushBuffer_sink_false_eq (A : AeadM) (w : EncWriter (List Nat))
    (c : Nat) (ct : List Nat)
    (hfin : w.state ≠ .Finished) (henc : w.encryptor = some c)
    (hnext : A.encNext c w.buffer = some ct) (hlen : ct.length ≤ w.bufCap) :
    flushBuffer A sinkOps w false =
      ({ w with
          encryptor := some (c + 1), buffer := [],
          writer := w.writer ++ (if w.state = .Init then w.nonce else []) ++
                    beBytes ct.length ++ ct,
          state := .Writing }, none) := by
  rw [flushBuffer, if_neg hfin, encStep_false_eq A w c ct henc hnext hlen]
  simp only []
  rw [emitStep_sink_eq]
  rcases hs : w.state <;> simp_all

theorem flushBuffer_sink_true_eq (A : AeadM) (w : EncWriter (List Nat))
    (c : Nat) (ct : List Nat)
    (hfin : w.state ≠ .Finished) (henc : w.encryptor = some c)
    (hlast : A.encLast c w.buffer = some ct) (hlen : ct.length ≤ w.bufCap) :
    flushBuffer A sinkOps w true =
      ({ w with
          encryptor := none, encLastCalls := w.encLastCalls + 1,
          buffer := [],
          writer := w.writer ++ (if w.state = .Init then w.nonce else []) ++
                    beBytes ct.length ++ ct,
          state := .Finished }, none) := by
  rw [flushBuffer, if_neg hfin, encStep_true_eq A w c ct henc hlast hlen]
  simp only []
  rw [emitStep_sink_eq]
  simp

end AeadIo

namespace AeadIo

theorem writeW_sink_no_flush (A : AeadM) (w : EncWriter (List Nat)) (bs : List Nat)
    (hfin : w.state ≠ .Finished)
    (hfit : bs.length ≤ w.capacity - w.buffer.length)
    (hb : w.buffer.length ≤ w.capacity) (hc : w.capacity ≤ w.bufCap) :
    writeW A sinkOps w bs = ({ w with buffer := w.buffer ++ bs }, .ok bs.length) := by
  have hn : min bs.length (w.capacity - w.buffer.length) = bs.length := by omega
  simp only [writeW, if_neg hfin, if_neg (by omega : ¬ bs.length > w.capacity - w.buffer.length)]
  simp only [hn, List.take_length]
  rw [if_pos (by omega)]

theorem writeW_sink_flush (A : AeadM) (w : EncWriter (List Nat)) (bs : List Nat)
    (c : Nat) (ct : List Nat)
    (hfin : w.state ≠ .Finished)
    (hbig : bs.length > w.capacity - w.buffer.length)
    (henc : w.encryptor = some c)
    (hnext : A.encNext c w.buffer = some ct) (hlen : ct.length ≤ w.bufCap)
    (hc : w.capacity ≤ w.bufCap) :
    writeW A sinkOps w bs =
      ({ w with
          encryptor := some (c + 1),
          buffer := bs.take (min bs.length w.capacity),
          writer := w.writer ++ (if w.state = .Init then w.nonce else []) ++
                    beBytes ct.length ++ ct,
          state := .Writing }, .ok (min bs.length w.capacity)) := by
  simp only [writeW, if_neg hfin, if_pos hbig]
  rw [flushBuffer_sink_false_eq A w c ct hfin henc hnext hlen]
  simp only [List.length_nil, Nat.sub_zero, List.nil_append]
  rw [if_pos (by simp; omega)]

end AeadIo

namespace AeadIo

theorem wireOf_cons (x : List Nat) (l : List (List Nat)) :
    wireOf (x :: l) = beBytes x.length ++ x ++ wireOf l := by
  simp [wireOf, frame]

theorem writeAllGo_sink (A : AeadM) (hA : Lawful A) :
    ∀ fuel (P : List Nat) (w : EncWriter (List Nat)) (c : Nat),
      P.length ≤ fuel →
      w.encryptor = some c → w.state ≠ .Finished →
      w.buffer.length ≤ w.capacity →
      w.capacity + A.tagSize ≤ w.bufCap → 1 ≤ w.capacity →
      ∃ cs cts w',
        writeAllGo A sinkOps fuel w P = (w', none) ∧
        encSeq A c cs = some cts ∧
        w'.writer = w.writer ++
          (if w.state = .Init ∧ cs ≠ [] then w.nonce else []) ++ wireOf cts ∧
        w.buffer ++ P = cs.flatten ++ w'.buffer ∧
        (∀ x ∈ cs, x.length ≤ w.capacity) ∧
        w'.buffer.length ≤ w.capacity ∧
        w'.encryptor = some (c + cs.length) ∧
        w'.state = (if cs = [] then w.state else .Writing) ∧
        w'.capacity = w.capacity ∧ w'.bufCap = w.bufCap ∧
        w'.nonce = w.nonce ∧ w'.encLastCalls = w.encLastCalls := by
  intro fuel
  induction fuel with
  | zero =>
    intro P w c hP henc hfin hb hcap h1
    have hPnil : P = [] := List.eq_nil_of_length_eq_zero (by omega)
    subst hPnil
    exact ⟨[], [], w, rfl, rfl, by simp [wireOf], by simp, by simp, hb,
      by simp [henc], by simp, rfl, rfl, rfl, rfl⟩
  | succ fuel ih =>
    intro P w c hP henc hfin hb hcap h1
    cases P with
    | nil =>
      exact ⟨[], [], w, rfl, rfl, by simp [wireOf], by simp, by simp, hb,
        by simp [henc], by simp, rfl, rfl, rfl, rfl⟩
    | cons p ps =>
      by_cases hbig : (p :: ps).length > w.capacity - w.buffer.length
      · -- the input does not fit: flush_buffer(false) first
        obtain ⟨ct, hct⟩ :=
          Option.isSome_iff_exists.mp (hA.encNext_isSome c w.buffer)
        have hctlen : ct.length = w.buffer.length + A.tagSize :=
          hA.encNext_len c _ _ hct
        have hw := writeW_sink_flush A w (p :: ps) c ct hfin hbig henc hct
          (by omega) (by omega)
        rw [writeAllGo, hw]
        have hn1 : 1 ≤ min (p :: ps).length w.capacity := by
          simp; omega
        obtain ⟨m, hm⟩ : ∃ m, min (p :: ps).length w.capacity = m + 1 :=
          ⟨min (p :: ps).length w.capacity - 1, by omega⟩
        rw [hm]
        simp only []
        rw [← hm]
        obtain ⟨cs', cts', w', hgo, hseq, hwriter, hbuf, hbound, hblen,
          hencr, hstate, hcapeq, hbufcapeq, hnonceeq, hlasteq⟩ :=
          ih ((p :: ps).drop (min (p :: ps).length w.capacity))
            { w with
                encryptor := some (c + 1),
                buffer := (p :: ps).take (min (p :: ps).length w.capacity),
                writer := w.writer ++ (if w.state = .Init then w.nonce else [])
                          ++ beBytes ct.length ++ ct,
                state := .Writing }
            (c + 1)
            (by simp only [List.length_drop]; omega)
            (by simp) (by simp)
            (by simp only [List.length_take]; omega)
            (by simpa using hcap) (by simpa using h1)
        refine ⟨w.buffer :: cs', ct :: cts', w', hgo, ?_, ?_, ?_, ?_, ?_, ?_,
          ?_, ?_, ?_, ?_, ?_⟩
        · simp [encSeq, hct, hseq]
        · rw [hwriter, wireOf_cons]
          simp only [List.append_assoc]
          by_cases hi : w.state = .Init <;> simp [hi]
        · rw [List.flatten_cons]
          have : (p :: ps) = cs'.flatten ++ w'.buffer := by
            have h2 := hbuf
            simp only [List.take_append_drop] at h2
            simpa using h2
          rw [List.append_assoc, ← this]
        · intro x hx
          rcases List.mem_cons.mp hx with rfl | hx'
          · exact hb
          · simpa using hbound x hx'
        · first
          | exact hblen
          | simpa using hblen
        · rw [hencr]
          simp [List.length_cons]
          omega
        · rw [hstate]
          split <;> simp
        · simpa using hcapeq
        · simpa using hbufcapeq
        · simpa using hnonceeq
        · simpa using hlasteq
      · -- the input fits in the remaining capacity
        have hw := writeW_sink_no_flush A w (p :: ps) hfin (by omega) hb
          (by omega)
        rw [writeAllGo, hw]
        simp only [List.length_cons]
        have hdrop : (p :: ps).drop (ps.length + 1) = [] := by
          rw [show ps.length + 1 = (p :: ps).length from rfl, List.drop_length]
        rw [hdrop]
        refine ⟨[], [], { w with buffer := w.buffer ++ (p :: ps) },
          ?_, rfl, by simp [wireOf], by simp, by simp,
          by simp only [List.length_append]; omega,
          by simp [henc], by simp, rfl, rfl, rfl, rfl⟩
        rw [writeAllGo]

end AeadIo

namespace AeadIo

theorem wireOf_append (l₁ l₂ : List (List Nat)) :
    wireOf (l₁ ++ l₂) = wireOf l₁ ++ wireOf l₂ := by
  simp [wireOf]

theorem encryptRun_encodes (A : AeadM) (hA : Lawful A) (P nonce : List Nat)
    (cap : Nat) (hcap : A.tagSize + 1 ≤ min cap U32MAX) :
    ∃ out, encryptRun A nonce cap P = some (nonce ++ out) ∧
      EncodesFrom A (min cap U32MAX - A.tagSize) P out := by
  have hctor : EncWriter.fromAeadW A nonce [] cap ([] : List Nat) =
      some ⟨some 0, nonce, [], cap, [], min cap U32MAX - A.tagSize, .Init, 0⟩ := by
    simp only [EncWriter.fromAeadW]
    rw [if_pos (by omega), if_neg (by omega)]
  have hminle : min cap U32MAX ≤ cap := Nat.min_le_left _ _
  obtain ⟨cs, cts, w₁, hgo, hseq, hwriter, hbuf, hbound, hblen, hencr,
      hstate, hcapeq, hbufcapeq, hnonceeq, hlasteq⟩ :=
    writeAllGo_sink A hA P.length P
      ⟨some 0, nonce, [], cap, [], min cap U32MAX - A.tagSize, .Init, 0⟩ 0
      le_rfl rfl (by simp) (by simp) (by simp; omega) (by simp; omega)
  obtain ⟨ctl, hctl⟩ :=
    Option.isSome_iff_exists.mp (hA.encLast_isSome cs.length w₁.buffer)
  have hctllen : ctl.length = w₁.buffer.length + A.tagSize :=
    hA.encLast_len _ _ _ hctl
  have hfin1 : w₁.state ≠ .Finished := by
    rw [hstate]; split <;> simp
  have hfl := flushBuffer_sink_true_eq A w₁ cs.length ctl hfin1
    (by simpa using hencr) hctl
    (by rw [hctllen, hbufcapeq]; simp at hblen hcapeq ⊢; omega)
  refine ⟨wireOf (cts ++ [ctl]), ?_, ?_⟩
  · simp only [encryptRun, hctor, writeAllW]
    rw [hgo]
    simp only [flushW]
    rw [hfl]
    simp only [sinkOps]
    rw [hwriter]
    by_cases hcs : cs = []
    · subst hcs
      have hcts : cts = [] := by
        simpa [encSeq] using hseq.symm
      subst hcts
      rw [hstate]
      simp [wireOf_append, wireOf_cons, wireOf, frame, hnonceeq]
    · rw [hstate]
      simp only [if_neg hcs, hcs]
      simp [wireOf_append, wireOf_cons, wireOf, frame, hnonceeq, hcs]
  · refine ⟨cs, w₁.buffer, cts, ctl, by simpa using hbuf, ?_, ?_, hseq, ?_, rfl⟩
    · intro x hx
      have := hbound x hx
      simpa [hcapeq] using this
    · simpa [hcapeq] using hblen
    · simpa using hctl

end AeadIo

namespace AeadIo

theorem beBytes_length (n : Nat) : (beBytes n).length = 4 := rfl

theorem encSeq_wire_length (A : AeadM) (hA : Lawful A) :
    ∀ cs (c : Nat) cts, encSeq A c cs = some cts →
      (wireOf cts).length =
        (cs.map (fun x => 4 + A.tagSize + x.length)).sum := by
  intro cs
  induction cs with
  | nil =>
    intro c cts h
    simp only [encSeq] at h
    cases h
    simp [wireOf]
  | cons p ps ih =>
    intro c cts h
    simp only [encSeq] at h
    cases hct : A.encNext c p with
    | none => rw [hct] at h; simp at h
    | some ct =>
      rw [hct] at h
      cases hrest : encSeq A (c + 1) ps with
      | none => rw [hrest] at h; simp at h
      | some rest =>
        rw [hrest] at h
        simp only [Option.some.injEq] at h
        subst h
        rw [wireOf_cons]
        have := ih (c + 1) rest hrest
        simp only [List.map_cons, List.sum_cons, List.length_append,
          beBytes_length, this]
        have hlen := hA.encNext_len c p ct hct
        omega

/-- C3 (amended): the emitted stream length is
`nonce_size + Σ (4 + tag_size + chunk_len)` over the produced chunks, at
least one chunk (possibly empty) is always produced — and nothing follows
the last frame: no 4-byte zero terminator is emitted. -/
theorem c3_emitted_length (A : AeadM) (hA : Lawful A) (P nonce : List Nat)
    (cap : Nat) (hcap : A.tagSize + 1 ≤ min cap U32MAX)
    (hn : nonce.length = A.nonceSize) :
    ∃ bytes chunks, encryptRun A nonce cap P = some bytes ∧
      chunks ≠ [] ∧ P = chunks.flatten ∧
      bytes.length = A.nonceSize +
        (chunks.map (fun c => 4 + A.tagSize + c.length)).sum := by
  obtain ⟨out, hrun, cs, cl, cts, ctl, hP, hbound, hcl, hseq, hctl, hout⟩ :=
    encryptRun_encodes A hA P nonce cap hcap
  refine ⟨nonce ++ out, cs ++ [cl], hrun, by simp, by simpa using hP, ?_⟩
  have h1 := encSeq_wire_length A hA cs 0 cts hseq
  have h2 := hA.encLast_len _ _ _ hctl
  subst hout
  rw [wireOf_append]
  simp only [List.length_append, List.map_append, List.sum_append, hn, h1]
  simp [wireOf, frame, beBytes_length]
  omega

/-- C3 counterexample: for the empty plaintext the emitted stream has
length `nonce_size + (4 + tag_size + 0)` = 7 with the toy 2-byte-tag AEAD
and a 1-byte nonce, while the claimed formula (with its extra 4-byte zero
terminator) cannot equal 7 for any chunk decomposition of the empty
plaintext. -/
theorem c3_cex :
    (encryptRun (toy 2 1) [9] 3 []).map List.length = some 7 ∧
    ∀ chunks : List (List Nat), chunks ≠ [] →
      ([] : List Nat) = chunks.flatten →
      (toy 2 1).nonceSize +
          (chunks.map (fun c => 4 + (toy 2 1).tagSize + c.length)).sum + 4 ≠ 7 := by
  constructor
  · rfl
  · intro chunks hne hfl
    cases chunks with
    | nil => exact absurd rfl hne
    | cons c rest =>
      simp only [List.map_cons, List.sum_cons, toy]
      omega

end AeadIo

namespace AeadIo

theorem decOk_of_enc (A : AeadM) (hA : Lawful A) :
    ∀ cs (c : Nat) cts cl ctl, encSeq A c cs = some cts →
      A.encLast (c + cs.length) cl = some ctl →
      DecOk A c (cts ++ [ctl]) (cs.flatten ++ cl) := by
  intro cs
  induction cs with
  | nil =>
    intro c cts cl ctl hseq hlast
    simp only [encSeq, Option.some.injEq] at hseq
    subst hseq
    simp only [List.length_nil, Nat.add_zero] at hlast
    simpa using DecOk.last (hA.decLast_enc _ _ _ hlast)
  | cons p ps ih =>
    intro c cts cl ctl hseq hlast
    simp only [encSeq] at hseq
    cases hct : A.encNext c p with
    | none => rw [hct] at hseq; simp at hseq
    | some ct =>
      rw [hct] at hseq
      cases hrest : encSeq A (c + 1) ps with
      | none => rw [hrest] at hseq; simp at hseq
      | some rest =>
        rw [hrest] at hseq
        simp only [Option.some.injEq] at hseq
        subst hseq
        have hlast' : A.encLast (c + 1 + ps.length) cl = some ctl := by
          rw [show c + 1 + ps.length = c + (p :: ps).length by simp; omega]
          exact hlast
        have := ih (c + 1) rest cl ctl hrest hlast'
        simpa using DecOk.next (hA.decNext_enc _ _ _ hct) this

theorem enc_frame_bounds (A : AeadM) (hA : Lawful A) :
    ∀ cs (c : Nat) cts cl ctl (ceff : Nat), encSeq A c cs = some cts →
      A.encLast (c + cs.length) cl = some ctl →
      (∀ x ∈ cs, x.length ≤ ceff) → cl.length ≤ ceff →
      ∀ f ∈ cts ++ [ctl], 1 ≤ f.length ∧ f.length ≤ ceff + A.tagSize := by
  intro cs
  induction cs with
  | nil =>
    intro c cts cl ctl ceff hseq hlast _ hcl f hf
    simp only [encSeq, Option.some.injEq] at hseq
    subst hseq
    simp only [List.nil_append, List.mem_singleton] at hf
    subst hf
    have := hA.encLast_len _ _ _ hlast
    have := hA.tag_pos
    omega
  | cons p ps ih =>
    intro c cts cl ctl ceff hseq hlast hcs hcl f hf
    simp only [encSeq] at hseq
    cases hct : A.encNext c p with
    | none => rw [hct] at hseq; simp at hseq
    | some ct =>
      rw [hct] at hseq
      cases hrest : encSeq A (c + 1) ps with
      | none => rw [hrest] at hseq; simp at hseq
      | some rest =>
        rw [hrest] at hseq
        simp only [Option.some.injEq] at hseq
        subst hseq
        have hlast' : A.encLast (c + 1 + ps.length) cl = some ctl := by
          rw [show c + 1 + ps.length = c + (p :: ps).length by simp; omega]
          exact hlast
        have hf2 : f = ct ∨ f ∈ rest ∨ f = ctl := by simpa using hf
        rcases hf2 with rfl | hf' | hf3
        · have := hA.encNext_len _ _ _ hct
          have := hA.tag_pos
          have := hcs p (by simp)
          omega
        · exact ih (c + 1) rest cl ctl ceff hrest hlast'
            (fun x hx => hcs x (by simp [hx])) hcl f (by simp [hf'])
        · subst hf3
          exact ih (c + 1) rest cl f ceff hrest hlast'
            (fun x hx => hcs x (by simp [hx])) hcl f (by simp)

end AeadIo

namespace AeadIo

theorem DecOk_ne_nil (A : AeadM) {c : Nat} {F : List (List Nat)} {ps : List Nat}
    (h : DecOk A c F ps) : F ≠ [] := by
  cases h <;> simp

theorem readLoop_run (A : AeadM) :
    ∀ fuel (r : DecReader) tail,
      r.stream.length + 1 ≤ fuel →
      r.buffer = [] →
      RemCfg A r tail →
      r.capacity ≤ r.bufCap → r.capacity ≤ U32MAX →
      ∃ r', readLoop A fuel r =
          (r', if tail = [] then .retZero else .filled) ∧
        r'.readOffset = r.readOffset ∧ r'.capacity = r.capacity ∧
        r'.bufCap = r.bufCap ∧
        ∃ t', tail = r'.buffer ++ t' ∧ RemCfg A r' t' := by
  intro fuel
  induction fuel with
  | zero =>
    intro r tail hfuel hb hcfg hc hu
    omega
  | succ fuel ih =>
    intro r tail hfuel hb hcfg hc hu
    rcases hcfg with ⟨hz, hdec, hstr, rfl⟩ |
      ⟨c, F, hdec, hbtr, hstr, hbound, hdok⟩
    · refine ⟨r, ?_, rfl, rfl, rfl, [], by simp [hb], .inl ⟨hz, hdec, hstr, rfl⟩⟩
      rw [readLoop]
      simp [hb, hz]
    · cases hdok with
      | last hdl =>
        rename_i ct
        simp only [List.headD_cons] at hbtr
        simp only [List.headD_cons, List.tail_cons, wireOf, List.map_nil,
          List.flatten_nil, List.append_nil] at hstr
        have hct := hbound ct (by simp)
        set st : DecReader :=
          { r with decryptor := .emptyD, buffer := tail, stream := [],
                   bytesToRead := 0,
                   decLastCalls := r.decLastCalls + 1 } with hst
        have hstep : readLoop A (fuel + 1) r = readLoop A fuel st := by
          rw [readLoop]
          rw [if_pos hb, if_neg (by omega)]
          simp only []
          rw [if_pos (by omega), if_pos (by rw [hstr]; omega)]
          have h1 : r.stream.take r.bytesToRead = ct := by
            rw [hstr, hbtr, List.take_length]
          have h2 : r.stream.drop r.bytesToRead = [] := by
            rw [hstr, hbtr, List.drop_length]
          rw [h1, h2]
          have hcs : readChunkSize
              { r with buffer := ct, stream := [] } =
              ({ r with buffer := ct, stream := [], bytesToRead := 0 }, none) := by
            simp [readChunkSize]
          rw [hcs]
          simp only [if_pos rfl]
          rw [hdec]
          simp only []
          rw [hdl]
          simp only [if_true]
        have hloop2 : readLoop A fuel st =
            (st, if tail = [] then .retZero else .filled) := by
          by_cases hp : tail = []
          · rw [readLoop.eq_def]
            simp [hp, hst]
          · rw [readLoop.eq_def]
            simp [hp, hst]
        refine ⟨st, ?_, rfl, rfl, rfl, [], by simp [hst], .inl ⟨rfl, rfl, rfl, rfl⟩⟩
        rw [hstep, hloop2]
      | next hdn hrest =>
        rename_i ct p cts ps'
        obtain ⟨f₁, rest, rfl⟩ : ∃ f₁ rest, cts = f₁ :: rest := by
          cases cts with
          | nil => exact absurd rfl (DecOk_ne_nil A hrest)
          | cons a b => exact ⟨a, b, rfl⟩
        simp only [List.headD_cons] at hbtr
        simp only [List.headD_cons, List.tail_cons] at hstr
        have hct := hbound ct (by simp)
        have hf₁ := hbound f₁ (by simp)
        have hwof : wireOf (f₁ :: rest) =
            beBytes f₁.length ++ (f₁ ++ wireOf rest) := by
          rw [wireOf_cons]
          simp [List.append_assoc]
        set st : DecReader :=
          { r with decryptor := .decryptorD (c + 1), buffer := p,
                   stream := f₁ ++ wireOf rest,
                   bytesToRead := f₁.length,
                   decNextCalls := r.decNextCalls + 1 } with hst
        have hstep : readLoop A (fuel + 1) r = readLoop A fuel st := by
          rw [readLoop]
          rw [if_pos hb, if_neg (by omega)]
          simp only []
          rw [if_pos (by omega), if_pos (by rw [hstr]; simp; omega)]
          have h1 : r.stream.take r.bytesToRead = ct := by
            rw [hstr, hbtr]
            simp
          have h2 : r.stream.drop r.bytesToRead = wireOf (f₁ :: rest) := by
            rw [hstr, hbtr]
            simp
          rw [h1, h2]
          have hcs : readChunkSize
              { r with buffer := ct, stream := wireOf (f₁ :: rest) } =
              ({ r with buffer := ct, stream := f₁ ++ wireOf rest,
                        bytesToRead := f₁.length }, none) := by
            simp only [readChunkSize, hwof]
            rw [if_neg (by simp [beBytes_length]), if_neg (by simp [beBytes_length])]
            have ht4 : ((beBytes f₁.length ++ (f₁ ++ wireOf rest)).take 4) =
                beBytes f₁.length := by
              rw [show (4 : Nat) = (beBytes f₁.length).length from rfl]
              simp
            have hd4 : ((beBytes f₁.length ++ (f₁ ++ wireOf rest)).drop 4) =
                f₁ ++ wireOf rest := by
              rw [show (4 : Nat) = (beBytes f₁.length).length from rfl]
              simp
            rw [ht4, hd4, fromBeBytes_beBytes (by omega)]
            rw [if_neg (by omega)]
          rw [hcs]
          simp only []
          rw [if_neg (by omega : ¬ f₁.length = 0)]
          rw [hdec]
          simp only []
          rw [hdn]
        by_cases hp : p = []
        · subst hp
          obtain ⟨r', hloop, hoff, hcap', hbufcap', t', ht', hcfg'⟩ :=
            ih st ps'
              (by
                have hlen : r.stream.length =
                    ct.length + (wireOf (f₁ :: rest)).length := by
                  rw [hstr]; simp
                rw [hwof] at hlen
                simp only [List.length_append, beBytes_length] at hlen
                simp only [hst, List.length_append]
                omega)
              (by simp [hst])
              (.inr ⟨c + 1, f₁ :: rest, by simp [hst], by simp [hst],
                by simp [hst],
                (by
                  intro g hg
                  have := hbound g (by simp [List.mem_cons] at hg ⊢; tauto)
                  simpa [hst] using this),
                hrest⟩)
              (by simpa [hst] using hc) (by simpa [hst] using hu)
          refine ⟨r', ?_, by rw [hoff], by rw [hcap'],
            by rw [hbufcap'], t', by simpa using ht', hcfg'⟩
          rw [hstep, hloop]
          simp
        · have hloop2 : readLoop A fuel st = (st, .filled) := by
            rw [readLoop.eq_def]
            simp only []
            rw [if_neg (by simpa [hst] using hp)]
          refine ⟨st, ?_, by simp [hst], by simp [hst], by simp [hst],
            ps', by simp [hst], ?_⟩
          · rw [hstep, hloop2]
            simp [hp]
          · exact .inr ⟨c + 1, f₁ :: rest, by simp [hst], by simp [hst],
              by simp [hst],
              (by
                intro g hg
                have := hbound g (by simp [List.mem_cons] at hg ⊢; tauto)
                simpa [hst] using this),
              hrest⟩

end AeadIo

namespace AeadIo

theorem readCore_copy (A : AeadM) (r r₁ : DecReader) (t' ps : List Nat) (n : Nat)
    (hn : 1 ≤ n)
    (hloop : readLoop A (r.stream.length + 1) r = (r₁, .filled))
    (hofflt : r₁.readOffset < r₁.buffer.length)
    (hps : ps = r₁.buffer.drop r₁.readOffset ++ t')
    (hcfg : RemCfg A r₁ t') :
    ∃ r' k, readCore A r n = (r', .ok (ps.take k)) ∧
      ReaderRem A r' (ps.drop k) ∧ 1 ≤ k ∧
      r'.capacity = r₁.capacity ∧ r'.bufCap = r₁.bufCap := by
  have hk1 : 1 ≤ min (r₁.buffer.length - r₁.readOffset) n := by omega
  have hkle : min (r₁.buffer.length - r₁.readOffset) n ≤
      r₁.buffer.length - r₁.readOffset := by omega
  have htake : ps.take (min (r₁.buffer.length - r₁.readOffset) n) =
      (r₁.buffer.drop r₁.readOffset).take
        (min (r₁.buffer.length - r₁.readOffset) n) := by
    rw [hps]
    rw [List.take_append_of_le_length (by simp only [List.length_drop]; omega)]
  have hdrop : ps.drop (min (r₁.buffer.length - r₁.readOffset) n) =
      r₁.buffer.drop
        (r₁.readOffset + min (r₁.buffer.length - r₁.readOffset) n) ++ t' := by
    rw [hps]
    rw [List.drop_append_of_le_length (by simp only [List.length_drop]; omega)]
    rw [List.drop_drop]
  by_cases hfull : r₁.buffer.length =
      r₁.readOffset + min (r₁.buffer.length - r₁.readOffset) n
  · refine ⟨{ r₁ with buffer := [], readOffset := 0 },
      min (r₁.buffer.length - r₁.readOffset) n, ?_, ?_, hk1, rfl, rfl⟩
    · simp only [readCore, hloop]
      rw [htake, if_pos hfull]
    · refine ⟨t', Or.inl ⟨rfl, rfl, ?_⟩, hcfg⟩
      rw [hdrop, ← hfull, List.drop_length, List.nil_append]
  · have hzdrop :
        (r₁.buffer.take r₁.readOffset ++
          List.replicate (min (r₁.buffer.length - r₁.readOffset) n) 0 ++
          r₁.buffer.drop
            (r₁.readOffset + min (r₁.buffer.length - r₁.readOffset) n)).drop
          (r₁.readOffset + min (r₁.buffer.length - r₁.readOffset) n) =
        r₁.buffer.drop
          (r₁.readOffset + min (r₁.buffer.length - r₁.readOffset) n) := by
      have hl : (r₁.buffer.take r₁.readOffset ++
          List.replicate (min (r₁.buffer.length - r₁.readOffset) n) 0).length =
          r₁.readOffset + min (r₁.buffer.length - r₁.readOffset) n := by
        simp [List.length_take, List.length_replicate]
        omega
      have hdl := List.drop_left
        (r₁.buffer.take r₁.readOffset ++
          List.replicate (min (r₁.buffer.length - r₁.readOffset) n) 0)
        (r₁.buffer.drop
          (r₁.readOffset + min (r₁.buffer.length - r₁.readOffset) n))
      rw [hl] at hdl
      exact hdl
    have hzlen : (r₁.buffer.take r₁.readOffset ++
        List.replicate (min (r₁.buffer.length - r₁.readOffset) n) 0 ++
        r₁.buffer.drop
          (r₁.readOffset + min (r₁.buffer.length - r₁.readOffset) n)).length =
        r₁.buffer.length := by
      simp [List.length_append, List.length_take, List.length_drop,
        List.length_replicate]
      omega
    refine ⟨{ r₁ with
        buffer := r₁.buffer.take r₁.readOffset ++
          List.replicate (min (r₁.buffer.length - r₁.readOffset) n) 0 ++
          r₁.buffer.drop
            (r₁.readOffset + min (r₁.buffer.length - r₁.readOffset) n),
        readOffset :=
          r₁.readOffset + min (r₁.buffer.length - r₁.readOffset) n },
      min (r₁.buffer.length - r₁.readOffset) n, ?_, ?_, hk1, rfl, rfl⟩
    · simp only [readCore, hloop]
      rw [htake, if_neg hfull]
    · refine ⟨t', Or.inr ⟨?_, ?_⟩, hcfg⟩
      · simp only []
        rw [hzlen]
        omega
      · simp only []
        rw [hdrop, hzdrop]

end AeadIo

namespace AeadIo

theorem remCfg_not_uninit (A : AeadM) (r : DecReader) (t : List Nat)
    (h : RemCfg A r t) : r.decryptor ≠ .uninitD := by
  rcases h with ⟨_, hdec, _, _⟩ | ⟨c, F, hdec, _⟩ <;> simp [hdec]

theorem readerRem_not_uninit (A : AeadM) (r : DecReader) (ps : List Nat)
    (h : ReaderRem A r ps) : r.decryptor ≠ .uninitD := by
  obtain ⟨t, _, hcfg⟩ := h
  exact remCfg_not_uninit A r t hcfg

theorem readCore_run (A : AeadM) (r : DecReader) (ps : List Nat) (n : Nat)
    (hn : 1 ≤ n) (hrem : ReaderRem A r ps)
    (hc : r.capacity ≤ r.bufCap) (hu : r.capacity ≤ U32MAX) :
    ∃ r' k, readCore A r n = (r', .ok (ps.take k)) ∧
      ReaderRem A r' (ps.drop k) ∧
      ((ps = [] ∧ k = 0) ∨ (ps ≠ [] ∧ 1 ≤ k)) ∧
      r'.capacity = r.capacity ∧ r'.bufCap = r.bufCap := by
  obtain ⟨tail, harm, hcfg⟩ := hrem
  rcases harm with ⟨hbe, hoff0, hps⟩ | ⟨hofflt, hps⟩
  · subst hps
    obtain ⟨r₁, hloop, hoff₁, hcap₁, hbufcap₁, t', ht', hcfg'⟩ :=
      readLoop_run A (r.stream.length + 1) r ps le_rfl hbe hcfg hc hu
    by_cases ht : ps = []
    · subst ht
      rw [if_pos rfl] at hloop
      have hb1 : r₁.buffer = [] := by
        rcases List.append_eq_nil.mp ht'.symm with ⟨h1, _⟩
        exact h1
      have ht'nil : t' = [] := by
        rcases List.append_eq_nil.mp ht'.symm with ⟨_, h2⟩
        exact h2
      refine ⟨r₁, 0, ?_, ?_, Or.inl ⟨rfl, rfl⟩, hcap₁, hbufcap₁⟩
      · simp [readCore, hloop]
      · subst ht'nil
        exact ⟨[], Or.inl ⟨hb1, by rw [hoff₁, hoff0], rfl⟩, hcfg'⟩
    · rw [if_neg ht] at hloop
      have hb1 : r₁.buffer ≠ [] := (readLoop_filled A _ _ _ hloop).1
      have hofflt₁ : r₁.readOffset < r₁.buffer.length := by
        rw [hoff₁, hoff0]
        exact List.length_pos.mpr hb1
      have hps : ps = r₁.buffer.drop r₁.readOffset ++ t' := by
        rw [hoff₁, hoff0, List.drop_zero]
        exact ht'
      obtain ⟨r', k, hcore, hrem', hk1, hcap', hbufcap'⟩ :=
        readCore_copy A r r₁ t' ps n hn hloop hofflt₁ hps hcfg'
      exact ⟨r', k, hcore, hrem', Or.inr ⟨ht, hk1⟩,
        hcap'.trans hcap₁, hbufcap'.trans hbufcap₁⟩
  · subst hps
    have hbne : r.buffer ≠ [] := by
      intro h
      rw [h] at hofflt
      simp at hofflt
    have hloop : readLoop A (r.stream.length + 1) r = (r, .filled) := by
      rw [readLoop.eq_def]
      simp only []
      rw [if_neg hbne]
    obtain ⟨r', k, hcore, hrem', hk1, hcap', hbufcap'⟩ :=
      readCore_copy A r r tail (r.buffer.drop r.readOffset ++ tail) n hn
        hloop hofflt rfl hcfg
    refine ⟨r', k, hcore, hrem', Or.inr ⟨?_, hk1⟩, hcap', hbufcap'⟩
    intro hnil
    have hl := congrArg List.length hnil
    simp only [List.length_append, List.length_drop, List.length_nil] at hl
    omega

end AeadIo

namespace AeadIo

theorem readAll_run (A : AeadM) :
    ∀ fuel (r r₁ : DecReader) (ps : List Nat) (n : Nat),
      ps.length + 1 ≤ fuel → 1 ≤ n →
      readInit A r = (r₁, none) →
      ReaderRem A r₁ ps →
      r₁.capacity ≤ r₁.bufCap → r₁.capacity ≤ U32MAX →
      readAll A n fuel r = .ok ps := by
  intro fuel
  induction fuel with
  | zero =>
    intro r r₁ ps n hfuel hn hinit hrem hc hu
    omega
  | succ fuel ih =>
    intro r r₁ ps n hfuel hn hinit hrem hc hu
    obtain ⟨r', k, hcore, hrem', hdisj, hcap', hbufcap'⟩ :=
      readCore_run A r₁ ps n hn hrem hc hu
    have hread : readR A r n = (r', .ok (ps.take k)) := by
      simp only [readR, hinit, hcore]
    rcases hdisj with ⟨rfl, rfl⟩ | ⟨hne, hk1⟩
    · rw [readAll, hread]
      simp
    · obtain ⟨q, qs, hq⟩ : ∃ q qs, ps.take k = q :: qs := by
        cases hpt : ps.take k with
        | nil =>
          exfalso
          have hlt := congrArg List.length hpt
          simp only [List.length_take, List.length_nil] at hlt
          have : 1 ≤ ps.length := by
            cases ps with
            | nil => exact absurd rfl hne
            | cons a b => simp
          omega
        | cons a b => exact ⟨a, b, rfl⟩
      have hps1 : 1 ≤ ps.length := by
        cases ps with
        | nil => exact absurd rfl hne
        | cons a b => simp
      rw [readAll, hread, hq]
      simp only []
      have hih := ih r' r' (ps.drop k) n
        (by simp only [List.length_drop]; omega) hn
        (readInit_skip A r' (readerRem_not_uninit A r' _ hrem'))
        hrem'
        (by rw [hcap', hbufcap']; exact hc)
        (by rw [hcap']; exact hu)
      rw [hih]
      simp only []
      have hfinal : (q :: qs) ++ ps.drop k = ps := by
        rw [← hq, List.take_append_drop]
      rw [hfinal]

end AeadIo

namespace AeadIo

theorem readChunkSize_wire (r : DecReader) (f : List Nat) (fs : List (List Nat))
    (hs : r.stream = wireOf (f :: fs)) (h1 : 1 ≤ f.length)
    (hcap : f.length ≤ r.capacity) (hu : r.capacity ≤ U32MAX) :
    readChunkSize r =
      ({ r with stream := f ++ wireOf fs, bytesToRead := f.length }, none) := by
  have hwof : wireOf (f :: fs) = beBytes f.length ++ (f ++ wireOf fs) := by
    rw [wireOf_cons]
    simp [List.append_assoc]
  simp only [readChunkSize, hs, hwof]
  rw [if_neg (by simp [beBytes_length]), if_neg (by simp [beBytes_length])]
  have ht4 : ((beBytes f.length ++ (f ++ wireOf fs)).take 4) = beBytes f.length := by
    rw [show (4 : Nat) = (beBytes f.length).length from rfl]
    simp
  have hd4 : ((beBytes f.length ++ (f ++ wireOf fs)).drop 4) = f ++ wireOf fs := by
    rw [show (4 : Nat) = (beBytes f.length).length from rfl]
    simp
  rw [ht4, hd4, fromBeBytes_beBytes (by omega)]
  rw [if_neg (by omega)]

/-- C1: round trip.  For every plaintext, every buffer capacity admitting
at least one plaintext byte beyond the tag, and every lawful AEAD stream
primitive with its (key, nonce): writing the plaintext through the encrypt
writer and flushing, then reading the emitted bytes back through the
decrypt reader, yields exactly the original plaintext. -/
theorem c1_round_trip (A : AeadM) (hA : Lawful A) (P nonce : List Nat)
    (cap n fuel : Nat)
    (hcap : A.tagSize + 1 ≤ min cap U32MAX)
    (hnl : nonce.length = A.nonceSize)
    (hn : 1 ≤ n) (hfuel : P.length + 1 ≤ fuel) :
    ∃ out, encryptRun A nonce cap P = some out ∧
      decryptRun A cap out n fuel = some P := by
  obtain ⟨out, hrun, cs, cl, cts, ctl, hP, hbound, hcl, hseq, hctl, hout⟩ :=
    encryptRun_encodes A hA P nonce cap hcap
  refine ⟨nonce ++ out, hrun, ?_⟩
  subst hout
  have hctor : DecReader.newR A [] cap (nonce ++ wireOf (cts ++ [ctl])) =
      some ⟨.uninitD, [], cap, nonce ++ wireOf (cts ++ [ctl]), 0, 0,
        min cap U32MAX, 0, 0⟩ := by
    simp only [DecReader.newR]
    rw [if_neg (by omega)]
  obtain ⟨f₀, Ftail, hF⟩ : ∃ f₀ Ftail, cts ++ [ctl] = f₀ :: Ftail := by
    cases cts with
    | nil => exact ⟨ctl, [], rfl⟩
    | cons a b => exact ⟨a, b ++ [ctl], rfl⟩
  have hdok : DecOk A 0 (cts ++ [ctl]) P := by
    rw [hP]
    exact decOk_of_enc A hA cs 0 cts cl ctl hseq (by simpa using hctl)
  have hbounds : ∀ f ∈ cts ++ [ctl], 1 ≤ f.length ∧ f.length ≤ min cap U32MAX := by
    intro f hf
    have h2 := enc_frame_bounds A hA cs 0 cts cl ctl
      (min cap U32MAX - A.tagSize) hseq (by simpa using hctl) hbound hcl f hf
    omega
  have hf₀ : 1 ≤ f₀.length ∧ f₀.length ≤ min cap U32MAX :=
    hbounds f₀ (by rw [hF]; simp)
  have hinit : readInit A
      ⟨.uninitD, [], cap, nonce ++ wireOf (cts ++ [ctl]), 0, 0,
        min cap U32MAX, 0, 0⟩ =
      (⟨.decryptorD 0, [], cap, f₀ ++ wireOf Ftail, f₀.length, 0,
        min cap U32MAX, 0, 0⟩, none) := by
    simp only [readInit]
    rw [if_pos (by simp [List.length_append, ← hnl])]
    have hdropn : (nonce ++ wireOf (f₀ :: Ftail)).drop A.nonceSize =
        wireOf (f₀ :: Ftail) := by
      rw [← hnl]
      simp
    have := readChunkSize_wire
      ⟨.decryptorD 0, [], cap, wireOf (f₀ :: Ftail), 0, 0, min cap U32MAX, 0, 0⟩
      f₀ Ftail rfl hf₀.1 hf₀.2 (by simp)
    simp only [hF, hdropn]
    simpa using this
  have hrem : ReaderRem A
      ⟨.decryptorD 0, [], cap, f₀ ++ wireOf Ftail, f₀.length, 0,
        min cap U32MAX, 0, 0⟩ P := by
    refine ⟨P, Or.inl ⟨rfl, rfl, rfl⟩, Or.inr ⟨0, cts ++ [ctl], rfl, ?_, ?_, ?_, hdok⟩⟩
    · rw [hF]
      simp
    · rw [hF]
      simp
    · intro g hg
      exact hbounds g hg
  simp only [decryptRun, hctor]
  rw [readAll_run A fuel _ _ P n hfuel hn hinit hrem (by simp) (by simp)]

end AeadIo

namespace AeadIo

theorem toy_lawful (tag ns : Nat) (h : 1 ≤ tag) : Lawful (toy tag ns) := by
  constructor
  · exact h
  · intro c p
    simp [toy]
  · intro c p
    simp [toy]
  · intro c p ct hct
    simp only [toy, Option.some.injEq] at hct
    subst hct
    simp [toy]
  · intro c p ct hct
    simp only [toy, Option.some.injEq] at hct
    subst hct
    simp [toy]
  · intro c p ct hct
    simp only [toy, Option.some.injEq] at hct
    subst hct
    simp [toy]
  · intro c p ct hct
    simp only [toy, Option.some.injEq] at hct
    subst hct
    simp [toy]

theorem c1_round_trip_w :
    ∃ out, encryptRun (toy 2 1) [9] 4 [5, 6, 7] = some out ∧
      decryptRun (toy 2 1) 4 out 1 4 = some [5, 6, 7] :=
  c1_round_trip (toy 2 1) (toy_lawful 2 1 (by decide)) [5, 6, 7] [9] 4 1 4
    (by decide) rfl (by decide) (by decide)

theorem c3_emitted_length_w :
    ∃ bytes chunks, encryptRun (toy 2 1) [9] 4 [5] = some bytes ∧
      chunks ≠ [] ∧ [5] = chunks.flatten ∧
      bytes.length = (toy 2 1).nonceSize +
        (chunks.map (fun c => 4 + (toy 2 1).tagSize + c.length)).sum :=
  c3_emitted_length (toy 2 1) (toy_lawful 2 1 (by decide)) [5] [9] 4
    (by decide) rfl

theorem c10_nonce_only_stream_w :
    ∃ r', readR (toy 2 3) ⟨.uninitD, [], 8, [9, 9, 9], 0, 0, 8, 0, 0⟩ 5 =
        (r', .ok []) ∧
      r'.decNextCalls = 0 ∧ r'.decLastCalls = 0 ∧
      ∀ m, readR (toy 2 3) r' m = (r', .ok []) :=
  c10_nonce_only_stream (toy 2 3) [9, 9, 9] 8 5 _ rfl rfl

end AeadIo

namespace AeadIo

theorem encStep_true_track (A : AeadM) (w : EncWriter τ) :
    (encStep (ι := ι) A w true).1.state = w.state ∧
    (w.encryptor = none →
      (encStep (ι := ι) A w true).1.encryptor = none ∧
      (encStep (ι := ι) A w true).1.encLastCalls = w.encLastCalls) ∧
    (∀ c, w.encryptor = some c →
      (encStep (ι := ι) A w true).1.encryptor = none ∧
      (encStep (ι := ι) A w true).1.encLastCalls = w.encLastCalls + 1) := by
  simp only [encStep]
  cases henc : w.encryptor with
  | none => simp [henc]
  | some c =>
    simp only []
    cases hl : A.encLast c w.buffer with
    | none => simp [hl, henc]
    | some ct =>
      by_cases hlen : ct.length ≤ w.bufCap <;> simp [hl, hlen, henc]

theorem encStep_false_track (A : AeadM) (w : EncWriter τ) :
    (encStep (ι := ι) A w false).1.state = w.state ∧
    (encStep (ι := ι) A w false).1.encLastCalls = w.encLastCalls ∧
    ((encStep (ι := ι) A w false).1.encryptor = none ↔ w.encryptor = none) := by
  simp only [encStep]
  cases henc : w.encryptor with
  | none => simp [henc]
  | some c =>
    simp only []
    cases hl : A.encNext c w.buffer with
    | none => simp [hl, henc]
    | some ct =>
      by_cases hlen : ct.length ≤ w.bufCap <;> simp [hl, hlen, henc]

theorem emitStep_track (O : WOps ι τ) (w₁ : EncWriter τ) (last : Bool) :
    (emitStep O w₁ last).1.encLastCalls = w₁.encLastCalls ∧
    (emitStep O w₁ last).1.encryptor = w₁.encryptor ∧
    ((emitStep O w₁ last).1.state = .Finished →
      last = true ∨ w₁.state = .Finished) := by
  simp only [emitStep]
  by_cases hi : w₁.state = .Init
  · rw [if_pos hi]
    rcases hw1 : O.writeAll w₁.writer w₁.nonce with ⟨t1, e1⟩
    cases e1 with
    | none =>
      simp only []
      rcases hw2 : O.writeAll t1 (beBytes w₁.buffer.length) with ⟨t2, e2⟩
      cases e2 with
      | none =>
        simp only []
        rcases hw3 : O.writeAll t2 w₁.buffer with ⟨t3, e3⟩
        cases e3 with
        | none =>
          cases last <;> simp
        | some e => simp
      | some e => simp
    | some e => exact ⟨rfl, rfl, fun h => Or.inr h⟩
  · rw [if_neg hi]
    simp only []
    rcases hw2 : O.writeAll w₁.writer (beBytes w₁.buffer.length) with ⟨t2, e2⟩
    cases e2 with
    | none =>
      simp only []
      rcases hw3 : O.writeAll t2 w₁.buffer with ⟨t3, e3⟩
      cases e3 with
      | none =>
        cases last <;> simp [hi]
      | some e => exact ⟨rfl, rfl, fun h => Or.inr h⟩
    | some e => exact ⟨rfl, rfl, fun h => Or.inr h⟩

theorem flushBuffer_true_J (A : AeadM) (O : WOps ι τ) (w : EncWriter τ)
    (hJ : JInv w) :
    (flushBuffer A O w true).1.encLastCalls = 1 ∧
    JInv (flushBuffer A O w true).1 := by
  obtain ⟨hdis, hfin⟩ := hJ
  simp only [flushBuffer]
  by_cases hst : w.state = .Finished
  · rw [if_pos hst]
    have henc := hfin hst
    rcases hdis with ⟨hne, _⟩ | ⟨_, h1⟩
    · exact absurd henc hne
    · exact ⟨h1, ⟨Or.inr ⟨henc, h1⟩, fun _ => henc⟩⟩
  · rw [if_neg hst]
    obtain ⟨hes, hnone, hsome⟩ := encStep_true_track (ι := ι) A w
    rcases hse : encStep (ι := ι) A w true with ⟨w₁, e₁⟩
    rw [hse] at hes hnone hsome
    simp only [] at hes hnone hsome
    cases e₁ with
    | some e =>
      simp only []
      rcases hdis with ⟨hne, h0⟩ | ⟨henc, h1⟩
      · cases henc2 : w.encryptor with
        | none => exact absurd henc2 hne
        | some c =>
          obtain ⟨ha, hb⟩ := hsome c henc2
          refine ⟨by omega, ⟨Or.inr ⟨ha, by omega⟩, fun _ => ha⟩⟩
      · obtain ⟨ha, hb⟩ := hnone henc
        refine ⟨by omega, ⟨Or.inr ⟨ha, by omega⟩, fun _ => ha⟩⟩
    | none =>
      simp only []
      obtain ⟨he1, he2, he3⟩ := emitStep_track O w₁ true
      rcases hdis with ⟨hne, h0⟩ | ⟨henc, h1⟩
      · cases henc2 : w.encryptor with
        | none => exact absurd henc2 hne
        | some c =>
          obtain ⟨ha, hb⟩ := hsome c henc2
          refine ⟨by omega, ⟨Or.inr ⟨by rw [he2, ha], by omega⟩,
            fun _ => by rw [he2, ha]⟩⟩
      · obtain ⟨ha, hb⟩ := hnone henc
        refine ⟨by omega, ⟨Or.inr ⟨by rw [he2, ha], by omega⟩,
          fun _ => by rw [he2, ha]⟩⟩

theorem flushBuffer_false_J (A : AeadM) (O : WOps ι τ) (w : EncWriter τ)
    (hJ : JInv w) :
    JInv (flushBuffer A O w false).1 := by
  obtain ⟨hdis, hfin⟩ := hJ
  simp only [flushBuffer]
  by_cases hst : w.state = .Finished
  · rw [if_pos hst]
    exact ⟨hdis, hfin⟩
  · rw [if_neg hst]
    obtain ⟨hes, hcnt, hiff⟩ := encStep_false_track (ι := ι) A w
    rcases hse : encStep (ι := ι) A w false with ⟨w₁, e₁⟩
    rw [hse] at hes hcnt hiff
    simp only [] at hes hcnt hiff
    cases e₁ with
    | some e =>
      simp only []
      refine ⟨?_, fun hf => ?_⟩
      · rcases hdis with ⟨hne, h0⟩ | ⟨henc, h1⟩
        · exact Or.inl ⟨fun hn => hne (hiff.mp hn), by omega⟩
        · exact Or.inr ⟨hiff.mpr henc, by omega⟩
      · rw [hes] at hf
        exact hiff.mpr (hfin hf)
    | none =>
      simp only []
      obtain ⟨he1, he2, he3⟩ := emitStep_track O w₁ false
      refine ⟨?_, fun hf => ?_⟩
      · rcases hdis with ⟨hne, h0⟩ | ⟨henc, h1⟩
        · exact Or.inl ⟨fun hn => hne (hiff.mp (by rw [← he2]; exact hn)),
            by omega⟩
        · exact Or.inr ⟨by rw [he2]; exact hiff.mpr henc, by omega⟩
      · rcases he3 hf with h | h
        · simp at h
        · exact absurd (hes ▸ h) hst

theorem writeW_J (A : AeadM) (O : WOps ι τ) (w : EncWriter τ) (bs : List Nat)
    (hJ : JInv w) : JInv (writeW A O w bs).1 := by
  simp only [writeW]
  by_cases hst : w.state = .Finished
  · rw [if_pos hst]
    exact hJ
  · rw [if_neg hst]
    by_cases hbig : bs.length > w.capacity - w.buffer.length
    · rw [if_pos hbig]
      have hJ1 := flushBuffer_false_J A O w hJ
      rcases hfb : flushBuffer A O w false with ⟨w₁, e₁⟩
      rw [hfb] at hJ1
      simp only [] at hJ1
      cases e₁ with
      | some e => exact hJ1
      | none =>
        simp only []
        split
        · exact ⟨hJ1.1, hJ1.2⟩
        · exact hJ1
    · rw [if_neg hbig]
      simp only []
      split
      · exact ⟨hJ.1, hJ.2⟩
      · exact hJ

theorem flushW_J (A : AeadM) (O : WOps ι τ) (w : EncWriter τ)
    (hJ : JInv w) : JInv (flushW A O w).1 := by
  have h1 := flushBuffer_true_J A O w hJ
  simp only [flushW]
  rcases hfb : flushBuffer A O w true with ⟨w₁, e₁⟩
  rw [hfb] at h1
  simp only [] at h1
  cases e₁ with
  | some e => exact h1.2
  | none =>
    simp only []
    rcases hft : O.flushT w₁.writer with ⟨t, e₂⟩
    cases e₂ with
    | some e => exact ⟨h1.2.1, h1.2.2⟩
    | none => exact ⟨h1.2.1, h1.2.2⟩

theorem runOps_J (A : AeadM) (O : WOps ι τ) :
    ∀ ops (w : EncWriter τ), JInv w → JInv (runOps A O w ops) := by
  intro ops
  induction ops with
  | nil => intro w hJ; exact hJ
  | cons op ops ih =>
    intro w hJ
    apply ih
    cases op with
    | wr bs => exact writeW_J A O w bs hJ
    | fl => exact flushW_J A O w hJ

/-- C5: across any sequence of writer operations from a freshly constructed
writer (by either constructor), the AEAD encrypt-last operation is invoked
exactly once over the writer's whole lifetime: the terminal finalization
(explicit flush, `into_inner`, or drop) brings the invocation count to
exactly 1, a further drop leaves it at 1, and a failed `into_inner`
returns an adapter whose count is 1 and stays 1 after its drop. -/
theorem c5_encrypt_last_once (A : AeadM) (O : WOps ι τ) (nonce buf : List Nat)
    (bufCap : Nat) (t : τ) (w₀ : EncWriter τ) (ops : List WOpA)
    (hctor : EncWriter.fromAeadW A nonce buf bufCap t = some w₀ ∨
             EncWriter.newW A nonce buf bufCap t = some w₀) :
    (dropW A O (runOps A O w₀ ops)).encLastCalls = 1 ∧
    (dropW A O (dropW A O (runOps A O w₀ ops))).encLastCalls = 1 ∧
    (∀ w' e, intoInner A O (runOps A O w₀ ops) = .error (w', e) →
      w'.encLastCalls = 1 ∧ (dropW A O w').encLastCalls = 1) := by
  have hJ0 : JInv w₀ := by
    rcases hctor with h | h
    · simp only [EncWriter.fromAeadW] at h
      split at h
      · split at h
        · exact absurd h (by simp)
        · cases h
          exact ⟨Or.inl ⟨by simp, rfl⟩, by simp⟩
      · exact absurd h (by simp)
    · simp only [EncWriter.newW] at h
      split at h
      · exact absurd h (by simp)
      · cases h
        exact ⟨Or.inl ⟨by simp, rfl⟩, by simp⟩
  have hJ1 := runOps_J A O ops w₀ hJ0
  have h1 := flushBuffer_true_J A O (runOps A O w₀ ops) hJ1
  refine ⟨h1.1, (flushBuffer_true_J A O _ h1.2).1, ?_⟩
  intro w' e hret
  simp only [intoInner] at hret
  rcases hfb : flushBuffer A O (runOps A O w₀ ops) true with ⟨w₁, e₁⟩
  rw [hfb] at hret h1
  simp only [] at h1
  cases e₁ with
  | none => simp at hret
  | some e₂ =>
    simp only [Except.error.injEq, Prod.mk.injEq] at hret
    obtain ⟨rfl, rfl⟩ := hret
    exact ⟨h1.1, by
      have := flushBuffer_true_J A O w₁ h1.2
      simpa [dropW] using this.1⟩

end AeadIo

namespace AeadIo

theorem encStep_caps (A : AeadM) (w : EncWriter τ) (last : Bool) :
    (encStep (ι := ι) A w last).1.capacity = w.capacity ∧
    (encStep (ι := ι) A w last).1.bufCap = w.bufCap := by
  simp only [encStep]
  cases last with
  | true =>
    cases henc : w.encryptor with
    | none => simp
    | some c =>
      simp only []
      cases hl : A.encLast c w.buffer with
      | none => simp
      | some ct => by_cases hlen : ct.length ≤ w.bufCap <;> simp [hlen]
  | false =>
    cases henc : w.encryptor with
    | none => simp
    | some c =>
      simp only []
      cases hl : A.encNext c w.buffer with
      | none => simp
      | some ct => by_cases hlen : ct.length ≤ w.bufCap <;> simp [hlen]

theorem emitStep_none_fields (O : WOps ι τ) (wa w₁ : EncWriter τ) (last : Bool)
    (h : emitStep O wa last = (w₁, none)) :
    w₁.buffer = [] ∧ w₁.capacity = wa.capacity ∧ w₁.bufCap = wa.bufCap := by
  simp only [emitStep] at h
  by_cases hi : wa.state = .Init
  · rw [if_pos hi] at h
    rcases hw1 : O.writeAll wa.writer wa.nonce with ⟨t1, e1⟩
    rw [hw1] at h
    cases e1 with
    | some e => simp at h
    | none =>
      simp only [] at h
      rcases hw2 : O.writeAll t1 (beBytes wa.buffer.length) with ⟨t2, e2⟩
      rw [hw2] at h
      cases e2 with
      | some e => simp at h
      | none =>
        simp only [] at h
        rcases hw3 : O.writeAll t2 wa.buffer with ⟨t3, e3⟩
        rw [hw3] at h
        cases e3 with
        | some e => simp at h
        | none =>
          cases h
          exact ⟨rfl, rfl, rfl⟩
  · rw [if_neg hi] at h
    simp only [] at h
    rcases hw2 : O.writeAll wa.writer (beBytes wa.buffer.length) with ⟨t2, e2⟩
    rw [hw2] at h
    cases e2 with
    | some e => simp at h
    | none =>
      simp only [] at h
      rcases hw3 : O.writeAll t2 wa.buffer with ⟨t3, e3⟩
      rw [hw3] at h
      cases e3 with
      | some e => simp at h
      | none =>
        cases h
        exact ⟨rfl, rfl, rfl⟩

theorem flushBuffer_false_none_fields (A : AeadM) (O : WOps ι τ)
    (w w₁ : EncWriter τ) (hfin : w.state ≠ .Finished)
    (h : flushBuffer A O w false = (w₁, none)) :
    w₁.buffer = [] ∧ w₁.capacity = w.capacity ∧ w₁.bufCap = w.bufCap := by
  simp only [flushBuffer, if_neg hfin] at h
  rcases hse : encStep (ι := ι) A w false with ⟨wa, ea⟩
  rw [hse] at h
  have hcaps := encStep_caps (ι := ι) A w false
  rw [hse] at hcaps
  simp only [] at hcaps
  cases ea with
  | some e => simp at h
  | none =>
    simp only [] at h
    obtain ⟨h1, h2, h3⟩ := emitStep_none_fields O wa w₁ false h
    exact ⟨h1, h2.trans hcaps.1, h3.trans hcaps.2⟩

/-- C7: the writer's `write`: when already `Finished` it fails with an
AEAD-kind error; otherwise, when the input fits the remaining capacity it
appends `min(input, remaining)` bytes and returns that count, and when the
input does not fit it first performs a non-last `flush_buffer` (propagating
its error), after which it appends `min(input, remaining)` bytes of the
input (the remaining capacity then being the full effective capacity) and
returns that count. -/
theorem c7_write (A : AeadM) (O : WOps ι τ) (w : EncWriter τ) (bs : List Nat)
    (hbuf : w.buffer.length ≤ w.capacity) (hcap : w.capacity ≤ w.bufCap) :
    (w.state = .Finished → writeW A O w bs = (w, .error .aead)) ∧
    (w.state ≠ .Finished → bs.length ≤ w.capacity - w.buffer.length →
      writeW A O w bs =
        ({ w with buffer := w.buffer ++
            bs.take (min bs.length (w.capacity - w.buffer.length)) },
         .ok (min bs.length (w.capacity - w.buffer.length)))) ∧
    (w.state ≠ .Finished → bs.length > w.capacity - w.buffer.length →
      (∀ w₁ e, flushBuffer A O w false = (w₁, some e) →
        writeW A O w bs = (w₁, .error e)) ∧
      (∀ w₁, flushBuffer A O w false = (w₁, none) →
        writeW A O w bs =
          ({ w₁ with buffer := bs.take (min bs.length w₁.capacity) },
           .ok (min bs.length w₁.capacity)))) := by
  refine ⟨?_, ?_, ?_⟩
  · intro hfin
    simp [writeW, hfin]
  · intro hfin hfit
    have hn : min bs.length (w.capacity - w.buffer.length) = bs.length := by
      omega
    simp only [writeW, if_neg hfin, if_neg (by omega :
      ¬ bs.length > w.capacity - w.buffer.length)]
    rw [hn]
    rw [if_pos (by omega)]
  · intro hfin hbig
    constructor
    · intro w₁ e hfb
      simp only [writeW, if_neg hfin, if_pos hbig, hfb]
    · intro w₁ hfb
      obtain ⟨hb1, hc1, hbc1⟩ :=
        flushBuffer_false_none_fields A O w w₁ hfin hfb
      simp only [writeW, if_neg hfin, if_pos hbig, hfb]
      simp only [hb1, List.length_nil, Nat.sub_zero, List.nil_append]
      rw [if_pos (by rw [hc1, hbc1] at *; simp; omega)]

/-- C6 (amended): when `into_inner` fails, the composite error carries the
adapter with its buffer; the buffer length equals the pending chunk's
plaintext length plus the tag size when encrypt-last succeeded but a
transport write failed afterwards (the encrypted chunk is still in the
buffer), and equals the pending chunk's plaintext length when the
cryptographic step itself failed. -/
theorem c6_into_inner_buffer (A : AeadM) (O : WOps ι τ) (w : EncWriter τ)
    (c : Nat)
    (hfin : w.state ≠ .Finished) (henc : w.encryptor = some c)
    (hlen : ∀ ct, A.encLast c w.buffer = some ct →
      ct.length = w.buffer.length + A.tagSize)
    (hfit : w.buffer.length + A.tagSize ≤ w.bufCap) :
    ∀ w' e, intoInner A O w = .error (w', e) →
      (e = Err.aead → w'.buffer.length = w.buffer.length) ∧
      (∀ x, e = Err.io x →
        w'.buffer.length = w.buffer.length + A.tagSize) := by
  intro w' e hret
  simp only [intoInner, flushBuffer, if_neg hfin, encStep, henc] at hret
  cases hl : A.encLast c w.buffer with
  | none =>
    rw [hl] at hret
    simp only [Except.error.injEq, Prod.mk.injEq] at hret
    obtain ⟨rfl, rfl⟩ := hret
    exact ⟨fun _ => rfl, fun x hx => (by cases hx)⟩
  | some ct =>
    rw [hl] at hret
    have hctlen := hlen ct hl
    first
      | simp only [if_true] at hret
      | simp only [ite_true] at hret
      | skip
    rw [if_pos (show ct.length ≤ w.bufCap by omega)] at hret
    simp only [emitStep] at hret
    by_cases hi : w.state = .Init
    · rw [if_pos (show ({ w with encryptor := none, encLastCalls := w.encLastCalls + 1, buffer := ct } : EncWriter τ).state = .Init from hi)] at hret
      rcases hw1 : O.writeAll w.writer w.nonce with ⟨t1, e1⟩
      rw [hw1] at hret
      cases e1 with
      | some e2 =>
        simp only [Except.error.injEq, Prod.mk.injEq] at hret
        obtain ⟨rfl, rfl⟩ := hret
        exact ⟨fun hx => (by cases hx), fun x hx => by simp [hctlen]⟩
      | none =>
        simp only [] at hret
        rcases hw2 : O.writeAll t1 (beBytes ct.length) with ⟨t2, e2⟩
        rw [hw2] at hret
        cases e2 with
        | some e2 =>
          simp only [Except.error.injEq, Prod.mk.injEq] at hret
          obtain ⟨rfl, rfl⟩ := hret
          exact ⟨fun hx => (by cases hx), fun x hx => by simp [hctlen]⟩
        | none =>
          simp only [] at hret
          rcases hw3 : O.writeAll t2 ct with ⟨t3, e3⟩
          rw [hw3] at hret
          cases e3 with
          | some e3 =>
            simp only [Except.error.injEq, Prod.mk.injEq] at hret
            obtain ⟨rfl, rfl⟩ := hret
            exact ⟨fun hx => (by cases hx), fun x hx => by simp [hctlen]⟩
          | none => simp at hret
    · rw [if_neg (show ¬ ({ w with encryptor := none, encLastCalls := w.encLastCalls + 1, buffer := ct } : EncWriter τ).state = .Init from hi)] at hret
      simp only [] at hret
      rcases hw2 : O.writeAll w.writer (beBytes ct.length) with ⟨t2, e2⟩
      rw [hw2] at hret
      cases e2 with
      | some e2 =>
        simp only [Except.error.injEq, Prod.mk.injEq] at hret
        obtain ⟨rfl, rfl⟩ := hret
        exact ⟨fun hx => (by cases hx), fun x hx => by simp [hctlen]⟩
      | none =>
        simp only [] at hret
        rcases hw3 : O.writeAll t2 ct with ⟨t3, e3⟩
        rw [hw3] at hret
        cases e3 with
        | some e3 =>
          simp only [Except.error.injEq, Prod.mk.injEq] at hret
          obtain ⟨rfl, rfl⟩ := hret
          exact ⟨fun hx => (by cases hx), fun x hx => by simp [hctlen]⟩
        | none => simp at hret

end AeadIo

namespace AeadIo

theorem c5_encrypt_last_once_w :
    (dropW (toy 2 1) sinkOps (runOps (toy 2 1) sinkOps
        ⟨some 0, [9], [], 4, ([] : List Nat), 2, .Init, 0⟩
        [.wr [5], .fl])).encLastCalls = 1 ∧
    (dropW (toy 2 1) sinkOps (dropW (toy 2 1) sinkOps
        (runOps (toy 2 1) sinkOps
          ⟨some 0, [9], [], 4, ([] : List Nat), 2, .Init, 0⟩
          [.wr [5], .fl]))).encLastCalls = 1 ∧
    (∀ w' e, intoInner (toy 2 1) sinkOps
        (runOps (toy 2 1) sinkOps
          ⟨some 0, [9], [], 4, ([] : List Nat), 2, .Init, 0⟩
          [.wr [5], .fl]) = .error (w', e) →
      w'.encLastCalls = 1 ∧ (dropW (toy 2 1) sinkOps w').encLastCalls = 1) :=
  c5_encrypt_last_once (toy 2 1) sinkOps [9] [] 4 []
    ⟨some 0, [9], [], 4, ([] : List Nat), 2, .Init, 0⟩
    [.wr [5], .fl] (Or.inl rfl)

/-- C6 counterexample: plaintext `[5]` is written, then `into_inner` runs
against a transport that rejects every write.  Encrypt-last succeeds and
the transport write fails, yet the returned adapter's buffer holds the
3-byte ciphertext (plaintext length 1 + tag size 2), not the 0 bytes the
claim asserts for this case. -/
theorem c6_cex :
    intoInner (toy 2 1) budgetOps
        ((writeW (toy 2 1) budgetOps
          ⟨some 0, [9], [], 3, ((0, []) : Nat × List Nat), 1, .Init, 0⟩
          [5]).1) =
      .error
        (⟨none, [9], [5, 0, 0], 3, ((0, []) : Nat × List Nat), 1, .Init, 1⟩,
         .io ()) ∧
    ((⟨none, [9], [5, 0, 0], 3, ((0, []) : Nat × List Nat), 1, .Init, 1⟩ :
      EncWriter (Nat × List Nat)).buffer.length = 3 ∧ (3 : Nat) ≠ 0) :=
  ⟨rfl, rfl, by decide⟩

theorem c6_into_inner_buffer_w :
    ((Err.io () : Err Unit) = Err.aead →
      (flushBuffer (toy 2 1) budgetOps
          ⟨some 0, [9], [5], 3, ((0, []) : Nat × List Nat), 1, .Init, 0⟩
          true).1.buffer.length =
        (⟨some 0, [9], [5], 3, ((0, []) : Nat × List Nat), 1, .Init, 0⟩ :
          EncWriter (Nat × List Nat)).buffer.length) ∧
    ((Err.io () : Err Unit) = Err.io () →
      (flushBuffer (toy 2 1) budgetOps
          ⟨some 0, [9], [5], 3, ((0, []) : Nat × List Nat), 1, .Init, 0⟩
          true).1.buffer.length =
        (⟨some 0, [9], [5], 3, ((0, []) : Nat × List Nat), 1, .Init, 0⟩ :
          EncWriter (Nat × List Nat)).buffer.length + (toy 2 1).tagSize) := by
  have h := c6_into_inner_buffer (toy 2 1) budgetOps
    ⟨some 0, [9], [5], 3, ((0, []) : Nat × List Nat), 1, .Init, 0⟩ 0
    (by simp) rfl (fun ct h => by cases h; decide) (by decide)
    ((flushBuffer (toy 2 1) budgetOps
        ⟨some 0, [9], [5], 3, ((0, []) : Nat × List Nat), 1, .Init, 0⟩ true).1)
    (Err.io ()) (by rfl)
  exact ⟨h.1, fun hx => h.2 () hx⟩

theorem c7_write_w :
    ((⟨some 0, [9], [6], 4, ([] : List Nat), 2, .Init, 0⟩ :
        EncWriter (List Nat)).state = .Finished →
      writeW (toy 2 1) sinkOps
        ⟨some 0, [9], [6], 4, ([] : List Nat), 2, .Init, 0⟩ [7, 8, 9] =
        (⟨some 0, [9], [6], 4, ([] : List Nat), 2, .Init, 0⟩, .error .aead)) ∧
    ((⟨some 0, [9], [6], 4, ([] : List Nat), 2, .Init, 0⟩ :
        EncWriter (List Nat)).state ≠ .Finished →
      ([7, 8, 9] : List Nat).length ≤
        (⟨some 0, [9], [6], 4, ([] : List Nat), 2, .Init, 0⟩ :
          EncWriter (List Nat)).capacity -
        (⟨some 0, [9], [6], 4, ([] : List Nat), 2, .Init, 0⟩ :
          EncWriter (List Nat)).buffer.length →
      writeW (toy 2 1) sinkOps
        ⟨some 0, [9], [6], 4, ([] : List Nat), 2, .Init, 0⟩ [7, 8, 9] =
        ({ (⟨some 0, [9], [6], 4, ([] : List Nat), 2, .Init, 0⟩ :
            EncWriter (List Nat)) with
            buffer := (⟨some 0, [9], [6], 4, ([] : List Nat), 2, .Init, 0⟩ :
              EncWriter (List Nat)).buffer ++
              ([7, 8, 9] : List Nat).take
                (min ([7, 8, 9] : List Nat).length
                  ((⟨some 0, [9], [6], 4, ([] : List Nat), 2, .Init, 0⟩ :
                    EncWriter (List Nat)).capacity -
                  (⟨some 0, [9], [6], 4, ([] : List Nat), 2, .Init, 0⟩ :
                    EncWriter (List Nat)).buffer.length)) },
         .ok (min ([7, 8, 9] : List Nat).length
            ((⟨some 0, [9], [6], 4, ([] : List Nat), 2, .Init, 0⟩ :
              EncWriter (List Nat)).capacity -
            (⟨some 0, [9], [6], 4, ([] : List Nat), 2, .Init, 0⟩ :
              EncWriter (List Nat)).buffer.length)))) ∧
    ((⟨some 0, [9], [6], 4, ([] : List Nat), 2, .Init, 0⟩ :
        EncWriter (List Nat)).state ≠ .Finished →
      ([7, 8, 9] : List Nat).length >
        (⟨some 0, [9], [6], 4, ([] : List Nat), 2, .Init, 0⟩ :
          EncWriter (List Nat)).capacity -
        (⟨some 0, [9], [6], 4, ([] : List Nat), 2, .Init, 0⟩ :
          EncWriter (List Nat)).buffer.length →
      (∀ w₁ e, flushBuffer (toy 2 1) sinkOps
          ⟨some 0, [9], [6], 4, ([] : List Nat), 2, .Init, 0⟩ false =
          (w₁, some e) →
        writeW (toy 2 1) sinkOps
          ⟨some 0, [9], [6], 4, ([] : List Nat), 2, .Init, 0⟩ [7, 8, 9] =
          (w₁, .error e)) ∧
      (∀ w₁, flushBuffer (toy 2 1) sinkOps
          ⟨some 0, [9], [6], 4, ([] : List Nat), 2, .Init, 0⟩ false =
          (w₁, none) →
        writeW (toy 2 1) sinkOps
          ⟨some 0, [9], [6], 4, ([] : List Nat), 2, .Init, 0⟩ [7, 8, 9] =
          ({ w₁ with
              buffer := ([7, 8, 9] : List Nat).take
                (min ([7, 8, 9] : List Nat).length w₁.capacity) },
           .ok (min ([7, 8, 9] : List Nat).length w₁.capacity)))) :=
  c7_write (toy 2 1) sinkOps
    ⟨some 0, [9], [6], 4, ([] : List Nat), 2, .Init, 0⟩ [7, 8, 9]
    (by decide) (by decide)

end AeadIo

namespace AeadIo

theorem c2_constructor_capacity_w :
    ((EncWriter.fromAeadW (toy 16 1) [9] [] 20 ([] : List Nat)).isSome ↔
      (toy 16 1).tagSize + 1 ≤ min 20 U32MAX) ∧
    ((EncWriter.newW (toy 16 1) [9] [] 20 ([] : List Nat)).isSome ↔
      1 ≤ min 20 U32MAX) ∧
    (∀ w : EncWriter (List Nat),
      EncWriter.fromAeadW (toy 16 1) [9] [] 20 ([] : List Nat) = some w →
      w.capacity = min 20 U32MAX - (toy 16 1).tagSize) ∧
    (∀ w : EncWriter (List Nat),
      EncWriter.newW (toy 16 1) [9] [] 20 ([] : List Nat) = some w →
      w.capacity = min 20 U32MAX) :=
  c2_constructor_capacity (toy 16 1) [9] [] 20 ([] : List Nat)

end AeadIo
